import Mathlib

/-!
Verification development for the Coq state machine of coqide.vim
(`autoload/python/coqide/stm.py`).

The Python module is shallowly embedded: the mutable `_Document` and `STM`
objects become immutable Lean structures, in-place mutation becomes explicit
state passing, and Python exceptions (`KeyError`, `ValueError`, `IndexError`)
become an `Except Exc` result.  UI side effects performed through the
`handle_action` sink, and the highlight mutations of `Sentence` objects, are
recorded as an explicit list of `Effect` values.  Python `dict`s are embedded
as insertion-ordered association lists with the exact `get`/`in`/`[]=`/`del`
semantics used by the source.
-/

namespace Coqide

/-- Python exceptions that the embedded code can raise. -/
inductive Exc
  | keyError
  | valueError
  | indexError
deriving DecidableEq, Repr

/-- Embeds `Mark` (a 1-indexed line/column position) from `sentence.py`.
Modelled from the spec: `sentence.py` is not under `src/`; the spec describes
`Mark` as an immutable (line, column) pair. -/
structure Mark where
  line : Nat
  col : Nat
deriving DecidableEq, Repr

/-- Embeds `Region` from `sentence.py`.
Modelled from the spec: an immutable span with `start`, `stop` and the
sentence text `command`. -/
structure Region where
  start : Mark
  stop : Mark
  command : String
deriving DecidableEq, Repr

/-- Highlight status of a sentence.
Modelled from the spec: `Processing | Processed | Error | Axiom | none`. -/
inductive HlStatus
  | unset
  | processing
  | processed
  | errored
  | ax
deriving DecidableEq, Repr

/-- Embeds `Sentence` from `sentence.py`.
Modelled from the spec: a region, an assigned external `state_id` (0 for a
failed sentence), and a highlight status.  Python mutates the status in place
through `set_processing`/`set_error`/...; here a sentence value carries the
status it holds at the point of interest, and status transitions are recorded
as `Effect`s. -/
structure Sentence where
  region : Region
  state_id : Nat
  status : HlStatus
deriving DecidableEq, Repr

/-- Embeds `Sentence.has_error` — modelled from the spec: true when the
sentence currently has error highlight status. -/
def Sentence.has_error (s : Sentence) : Bool :=
  s.status == HlStatus.errored

/-- Error location inside a sentence, as reported by the external process. -/
structure Loc where
  start : Nat
  stop : Nat
deriving DecidableEq, Repr

/-- UI actions and sentence highlight mutations, recorded as explicit
effects.  `showMessage`, `showGoals` and `connLost` embed the corresponding
`actions` constructors; the `set...`/`unhighlight` effects embed the
`Sentence` methods called with `handle_action`. -/
inductive Effect
  | showMessage (message : String) (level : String)
  | setProcessing (s : Sentence)
  | setProcessed (s : Sentence)
  | setErr (s : Sentence) (location : Option Loc) (message : String)
  | setAx (s : Sentence)
  | unhighlight (s : Sentence)
  | showGoals
  | connLost (bufnr : Nat)
deriving DecidableEq, Repr

/-! ## Python dictionaries

Embedded as insertion-ordered association lists with `Nat` keys (state ids
and line numbers are both integers in the source).  The operations mirror
Python semantics exactly: `d.get(k, default)`, `k in d`, `d[k] = v`
(replace in place or append), `del d[k]` (`KeyError` when absent),
`len(d)`. -/

/-- Embeds Python `k in d`. -/
def dictContains (m : List (Nat × α)) (k : Nat) : Bool :=
  m.any (fun p => p.1 == k)

/-- Embeds Python `d[k]` / `d.get(k, None)`: the value under `k`, if any. -/
def dictGet (m : List (Nat × α)) (k : Nat) : Option α :=
  (m.find? (fun p => p.1 == k)).map Prod.snd

/-- Embeds Python `d.get(k, dflt)`. -/
def dictGetD (m : List (Nat × α)) (k : Nat) (dflt : α) : α :=
  (dictGet m k).getD dflt

/-- Embeds Python `d[k] = v`: replace the binding in place when the key is
present, otherwise append it (insertion order). -/
def dictSet (m : List (Nat × α)) (k : Nat) (v : α) : List (Nat × α) :=
  if dictContains m k then
    m.map (fun p => if p.1 == k then (k, v) else p)
  else
    m ++ [(k, v)]

/-- Embeds Python `del d[k]`: `KeyError` when the key is absent. -/
def dictDelete (m : List (Nat × α)) (k : Nat) : Except Exc (List (Nat × α)) :=
  if dictContains m k then
    Except.ok (m.filter (fun p => p.1 != k))
  else
    Except.error Exc.keyError

/-! ## Python list primitives used by the source -/

/-- Embeds Python `xs.index(a)`: the first position holding `a`, if any
(`ValueError` is the `none` case at call sites). -/
def listIndex [DecidableEq α] : List α → α → Option Nat
  | [], _ => none
  | x :: xs, a => if x = a then some 0 else (listIndex xs a).map (· + 1)

/-- Embeds Python `xs.remove(a)`: remove the first occurrence
(`ValueError` is the `none` case at call sites). -/
def listRemove [DecidableEq α] (xs : List α) (a : α) : Option (List α) :=
  if a ∈ xs then some (xs.erase a) else none

/-- Embeds Python `xs[a:b]` for non-negative bounds (`b = none` is `xs[a:]`);
slices clamp, they never raise. -/
def pySlice (xs : List α) (a : Nat) (b : Option Nat) : List α :=
  match b with
  | none => xs.drop a
  | some b => (xs.take b).drop a

/-- Embeds Python `del xs[a:b]` for non-negative bounds
(`b = none` is `del xs[a:]`). -/
def pyDelSlice (xs : List α) (a : Nat) (b : Option Nat) : List α :=
  match b with
  | none => xs.take a
  | some b => xs.take a ++ xs.drop (max a b)

/-- Embeds Python `xs[i]` for an `int` index: negative indices count from the
end; `none` is `IndexError`. -/
def pyGet (xs : List α) (i : Int) : Option α :=
  let j := if i < 0 then (xs.length : Int) + i else i
  if 0 ≤ j then xs.get? j.toNat else none

/-- Embeds Python `range(a, b)` (step 1). -/
def pyRange (a b : Nat) : List Nat :=
  List.range' a (b - a)

/-! ## The `_Document` class (`stm.py` lines 174–238) -/

/-- Embeds `_Document`: the sentence sequence `self.sentences`, the state-id
index `self.state_id_map`, and the line coverage index `self.line_map`. -/
structure Document where
  sentences : List Sentence
  state_id_map : List (Nat × Sentence)
  line_map : List (Nat × List Sentence)
deriving DecidableEq, Repr

/-- Embeds `_Document.__init__`: the empty document. -/
def Document.empty : Document :=
  { sentences := [], state_id_map := [], line_map := [] }

/-- The lines `range(start_line, stop_line + 1)` covered by a sentence's
region, as iterated by `add` and `remove_by_index`. -/
def coveredLines (s : Sentence) : List Nat :=
  pyRange s.region.start.line (s.region.stop.line + 1)

/-- Whether a sentence's region covers `line`
(membership in `coveredLines`). -/
def coversLine (s : Sentence) (line : Nat) : Bool :=
  decide (line ∈ coveredLines s)

/-- The line-map update of `_Document.add` for one covered line:
append to the existing list when the line is a key, else bind a fresh
singleton list. -/
def lineMapAdd (m : List (Nat × List Sentence)) (line : Nat) (s : Sentence) :
    List (Nat × List Sentence) :=
  if dictContains m line then
    dictSet m line (dictGetD m line [] ++ [s])
  else
    dictSet m line [s]

/-- Embeds `_Document.add(sentence, tip)`: insert after `tip` (after a
`list.index` lookup that can raise `ValueError`) or at the end, then record
the sentence in `state_id_map` and in `line_map` for every covered line. -/
def Document.add (d : Document) (sentence : Sentence) (tip : Option Sentence) :
    Except Exc Document :=
  match tip with
  | some t =>
    match listIndex d.sentences t with
    | none => Except.error Exc.valueError
    | some i =>
      Except.ok
        { sentences := d.sentences.insertIdx (i + 1) sentence
          state_id_map := dictSet d.state_id_map sentence.state_id sentence
          line_map := (coveredLines sentence).foldl
            (fun m line => lineMapAdd m line sentence) d.line_map }
  | none =>
    Except.ok
      { sentences := d.sentences.insertIdx d.sentences.length sentence
        state_id_map := dictSet d.state_id_map sentence.state_id sentence
        line_map := (coveredLines sentence).foldl
          (fun m line => lineMapAdd m line sentence) d.line_map }

/-- The line-map part of the `_Document.remove_by_index` inner loop:
`self.line_map[line].remove(sentence)` for every line of the removed
sentence's covered range.  `KeyError` when the line key is absent,
`ValueError` when the sentence is not in the line's list. -/
def removeLines (s : Sentence) (lm : List (Nat × List Sentence)) :
    List Nat → Except Exc (List (Nat × List Sentence))
  | [] => Except.ok lm
  | l :: rest =>
    match dictGet lm l with
    | none => Except.error Exc.keyError
    | some lst =>
      match listRemove lst s with
      | none => Except.error Exc.valueError
      | some lst1 => removeLines s (dictSet lm l lst1) rest

/-- The inner loop of `_Document.remove_by_index` for one removed sentence:
`del self.state_id_map[...]` then `self.line_map[line].remove(sentence)` for
every covered line. -/
def removeOne (m : List (Nat × Sentence)) (lm : List (Nat × List Sentence))
    (s : Sentence) : Except Exc (List (Nat × Sentence) × List (Nat × List Sentence)) :=
  match dictDelete m s.state_id with
  | Except.error e => Except.error e
  | Except.ok m1 =>
    match removeLines s lm (coveredLines s) with
    | Except.error e => Except.error e
    | Except.ok lm1 => Except.ok (m1, lm1)

/-- The loop of `_Document.remove_by_index` over `self.sentences[index_slice]`,
threading the two maps. -/
def removeFold (m : List (Nat × Sentence)) (lm : List (Nat × List Sentence)) :
    List Sentence → Except Exc (List (Nat × Sentence) × List (Nat × List Sentence))
  | [] => Except.ok (m, lm)
  | s :: rest =>
    match removeOne m lm s with
    | Except.error e => Except.error e
    | Except.ok (m1, lm1) => removeFold m1 lm1 rest

/-- Embeds `_Document.remove_by_index(index_slice)` for a slice
`slice(a, b)`: un-index every sentence of `self.sentences[a:b]` from the two
maps, then `del self.sentences[a:b]`. -/
def Document.remove_by_index (d : Document) (a : Nat) (b : Option Nat) :
    Except Exc Document :=
  match removeFold d.state_id_map d.line_map (pySlice d.sentences a b) with
  | Except.error e => Except.error e
  | Except.ok (m1, lm1) =>
    Except.ok { sentences := pyDelSlice d.sentences a b
                state_id_map := m1
                line_map := lm1 }

/-- Embeds `_Document.clear`. -/
def Document.clear (_ : Document) : Document :=
  { sentences := [], state_id_map := [], line_map := [] }

/-- Embeds `_Document.iter_covering_line(line)`:
`self.line_map.get(line, [])`. -/
def Document.iter_covering_line (d : Document) (line : Nat) : List Sentence :=
  dictGetD d.line_map line []

/-- The loop of `_Document.remove_covering_line` over
`self.line_map.get(line, [])`: for each listed sentence,
`del self.state_id_map[...]` then `self.sentences.remove(...)`. -/
def removeCoveringFold (m : List (Nat × Sentence)) (ss : List Sentence) :
    List Sentence → Except Exc (List (Nat × Sentence) × List Sentence)
  | [] => Except.ok (m, ss)
  | s :: rest =>
    match dictDelete m s.state_id with
    | Except.error e => Except.error e
    | Except.ok m1 =>
      match listRemove ss s with
      | none => Except.error Exc.valueError
      | some ss1 => removeCoveringFold m1 ss1 rest

/-- Embeds `_Document.remove_covering_line(line)`: for every sentence in
`self.line_map.get(line, [])`, `del self.state_id_map[...]` and
`self.sentences.remove(...)`; then `self.line_map[line].clear()`
(a `KeyError` when `line` is not a key). -/
def Document.remove_covering_line (d : Document) (line : Nat) :
    Except Exc Document :=
  match removeCoveringFold d.state_id_map d.sentences (dictGetD d.line_map line []) with
  | Except.error e => Except.error e
  | Except.ok (m1, ss1) =>
    if dictContains d.line_map line then
      Except.ok { sentences := ss1
                  state_id_map := m1
                  line_map := dictSet d.line_map line [] }
    else
      Except.error Exc.keyError

/-- Embeds `_Document.__len__`. -/
def Document.size (d : Document) : Nat :=
  d.sentences.length

/-- Embeds `_Document.__bool__` (`bool(self.sentences)`). -/
def Document.toBool (d : Document) : Bool :=
  !d.sentences.isEmpty

/-! ## Protocol response shapes (`xmlprotocol.py` is not under `src/`)

Modelled from the spec, section 6:
`AddReq(...) -> {new_state_id, next_state_id?, message | error{location, message}}` and
`EditAtReq(target) -> {focused: bool, qed_state_id? | error{location?, state_id, message}}`. -/

/-- Modelled from the spec: the error part of an `Add` response. -/
structure AddError where
  location : Option Loc
  message : String
deriving DecidableEq, Repr

/-- Modelled from the spec: an `Add` response (`xp.AddRes`).  `next_state_id`
is `none` when the external process reports no explicit next edit point. -/
structure AddRes where
  error : Option AddError
  new_state_id : Nat
  next_state_id : Option Nat
  message : String
deriving DecidableEq, Repr

/-- Modelled from the spec: the error part of an `EditAt` response, carrying
the nearest valid state id. -/
structure EditAtError where
  state_id : Nat
  message : String
deriving DecidableEq, Repr

/-- Modelled from the spec: an `EditAt` response (`xp.EditAtRes`), with the
`focused` flag and the qed state id used by the focused branch. -/
structure EditAtRes where
  error : Option EditAtError
  focused : Bool
  qed : Nat
deriving DecidableEq, Repr

/-! ## The `STM` class (`stm.py` lines 241–490)

The mutable attributes of an `STM` object become one state record.  The
`_SequentialTaskThread` queue is embedded as the list of names of the
not-yet-started scheduled tasks: `schedule` appends a name and
`discard_scheduled_tasks` empties the list. -/

/-- The mutable state of an `STM` object: the document, the failed-sentence
marker, the initial state id (absent before `init` completes), the tip
sentence, the queue of scheduled task names, and the owning buffer number. -/
structure STMState where
  doc : Document
  failed_sentence : Option Sentence
  init_state_id : Option Nat
  tip_sentence : Option Sentence
  taskQueue : List String
  bufnr : Nat
deriving DecidableEq, Repr

namespace STM

/-- Embeds `STM.__init__(bufnr)`. -/
def mk (bufnr : Nat) : STMState :=
  { doc := Document.empty
    failed_sentence := none
    init_state_id := none
    tip_sentence := none
    taskQueue := []
    bufnr := bufnr }

/-- Embeds `STM._tip_state_id`: the tip's state id when a tip is set, else
the last sentence's state id when the document is non-empty, else the
initial state id (which is `None` before `init`). -/
def tip_state_id (st : STMState) : Option Nat :=
  match st.tip_sentence with
  | some t => some t.state_id
  | none =>
    match st.doc.sentences.getLast? with
    | some s => some s.state_id
    | none => st.init_state_id

/-- Whether `self._doc and self._doc.sentences[-1].has_error()` holds: the
guard of `forward` and `forward_many`. -/
def lastHasError (d : Document) : Bool :=
  d.toBool && (match d.sentences.getLast? with
    | some s => s.has_error
    | none => false)

/-- Embeds the synchronous part of `STM.forward(sregion, ...)`: when the last
sentence has error status, emit the message and return without scheduling;
otherwise `_forward_one` schedules one task and `_update_goal` another. -/
def forward (st : STMState) (_sregion : Region) : STMState × List Effect :=
  if lastHasError st.doc then
    (st, [Effect.showMessage "Fix the error first" "error"])
  else
    ({ st with taskQueue := st.taskQueue ++ ["forward_one", "get_goals"] }, [])

/-- Embeds the synchronous part of `STM.forward_many(sregions, ...)`: the
same up-front check once, then one `_forward_one` task per region and one
trailing `_update_goal` task. -/
def forward_many (st : STMState) (sregions : List Region) : STMState × List Effect :=
  if lastHasError st.doc then
    (st, [Effect.showMessage "Fix the error first." "error"])
  else
    ({ st with taskQueue :=
        st.taskQueue ++ sregions.map (fun _ => "forward_one") ++ ["get_goals"] }, [])

/-- Embeds the `on_res` closure of `STM._forward_one` (lines 376–395), the
handler of the `Add` response.  On success the new sentence is constructed,
inserted after the current tip, and `set_processing` is called on the object
now shared with the document (so the stored value carries the `processing`
status); then the tip becomes the sentence found under `next_state_id`
(`KeyError` when absent from the map), or is reset to absent.  On failure the
queued tasks are discarded, a state-id-0 sentence becomes the failed-sentence
marker, and `set_error` is called on it (the stored object therefore carries
the error status). -/
def addOnRes (st : STMState) (sregion : Region) (res : AddRes) :
    Except Exc (STMState × List Effect) :=
  match res.error with
  | none =>
    let sentence : Sentence :=
      { region := sregion, state_id := res.new_state_id, status := HlStatus.processing }
    match st.doc.add sentence st.tip_sentence with
    | Except.error e => Except.error e
    | Except.ok doc1 =>
      let effects := [Effect.setProcessing sentence,
                      Effect.showMessage res.message "info"]
      match res.next_state_id with
      | some k =>
        match dictGet doc1.state_id_map k with
        | none => Except.error Exc.keyError
        | some t =>
          Except.ok ({ st with doc := doc1, tip_sentence := some t }, effects)
      | none =>
        Except.ok ({ st with doc := doc1, tip_sentence := none }, effects)
  | some err =>
    let sentence : Sentence :=
      { region := sregion, state_id := 0, status := HlStatus.errored }
    Except.ok ({ st with taskQueue := [], failed_sentence := some sentence },
               [Effect.setErr sentence err.location err.message])

/-- Result of the `on_res` closure of `STM._backward_before_index`:
either the rollback completed (`done` was called), or the error branch
recursed with a new index (`done` was passed on). -/
inductive EditAtOutcome
  | done (st : STMState) (effects : List Effect)
  | retry (st : STMState) (effects : List Effect) (nextIndex : Nat)
deriving DecidableEq, Repr

/-- Embeds the `on_res` closure of `STM._backward_before_index` (lines
421–446), the handler of the `EditAt` response.  Unfocused success removes
`sentences[index:]` and clears the tip; focused success looks up the qed
sentence, removes `sentences[index:qed_index+1]`, and sets the tip to
`self._doc.sentences[index - 1]` evaluated after the removal (Python
indexing: `-1` is the last element).  The error branch shows the message,
locates the sentence holding the reported state id, and retries at the
position one past it. -/
def editAtOnRes (st : STMState) (index : Nat) (res : EditAtRes) :
    Except Exc EditAtOutcome :=
  match res.error with
  | none =>
    if !res.focused then
      match st.doc.remove_by_index index none with
      | Except.error e => Except.error e
      | Except.ok doc1 =>
        Except.ok (EditAtOutcome.done
          { st with doc := doc1, tip_sentence := none }
          ((st.doc.sentences.drop index).map Effect.unhighlight))
    else
      match dictGet st.doc.state_id_map res.qed with
      | none => Except.error Exc.keyError
      | some qed_sentence =>
        match listIndex st.doc.sentences qed_sentence with
        | none => Except.error Exc.valueError
        | some qed_index =>
          match st.doc.remove_by_index index (some (qed_index + 1)) with
          | Except.error e => Except.error e
          | Except.ok doc1 =>
            match pyGet doc1.sentences ((index : Int) - 1) with
            | none => Except.error Exc.indexError
            | some t =>
              Except.ok (EditAtOutcome.done
                { st with doc := doc1, tip_sentence := some t }
                ((pySlice st.doc.sentences index (some (qed_index + 1))).map
                  Effect.unhighlight))
  | some err =>
    match dictGet st.doc.state_id_map err.state_id with
    | none => Except.error Exc.keyError
    | some sentence =>
      match listIndex st.doc.sentences sentence with
      | none => Except.error Exc.valueError
      | some sindex =>
        Except.ok (EditAtOutcome.retry st
          [Effect.showMessage err.message "error"] (sindex + 1))

/-- Embeds the callback returned by `STM._make_on_lost_cb` (lines 479–490):
discard every queued task, un-highlight every sentence, clear the document,
emit one `ConnLost(bufnr)` action; the `Bool` result records that the `done`
completion signal fired (via `_finally_call`). -/
def onLostCb (st : STMState) : STMState × List Effect × Bool :=
  ({ st with taskQueue := [], doc := st.doc.clear },
   st.doc.sentences.map Effect.unhighlight ++ [Effect.connLost st.bufnr],
   true)

end STM

/-! ## The `_FeedbackHandler` class (`stm.py` lines 114–171) -/

/-- Modelled from the spec, section 6: the payload of a feedback
notification, a closed tagged union over the kinds the handler recognizes
(`xp.ErrorMsg`, `xp.Message`, `xp.Processed`, `xp.AddedAxiom`) plus a tag
for every unrecognized kind. -/
inductive FeedbackContent
  | errorMsgFb (location : Option Loc) (message : String)
  | messageFb (level : String) (location : Option Loc) (message : String)
  | processedFb
  | addedAxFb
  | otherFb
deriving DecidableEq, Repr

/-- A feedback notification: a state id and a payload. -/
structure Feedback where
  state_id : Nat
  content : FeedbackContent
deriving DecidableEq, Repr

/-- Embeds `_FeedbackHandler._on_error_msg`. -/
def onErrorMsg (location : Option Loc) (message : String)
    (sentence : Option Sentence) : List Effect :=
  match sentence with
  | some s => [Effect.setErr s location message]
  | none => [Effect.showMessage message "error"]

/-- Embeds `_FeedbackHandler._on_message`. -/
def onMessage (level : String) (location : Option Loc) (message : String)
    (sentence : Option Sentence) : List Effect :=
  if level == "error" then
    match sentence with
    | some s => [Effect.setErr s location message]
    | none => [Effect.showMessage message "error"]
  else
    [Effect.showMessage message level]

/-- Embeds `_FeedbackHandler._on_processed`. -/
def onProcessed (sentence : Option Sentence) : List Effect :=
  match sentence with
  | some s => [Effect.setProcessed s]
  | none => []

/-- Embeds `_FeedbackHandler._on_added_axiom` (the name is spelled out in
the source; shortened here). -/
def onAddedAx (sentence : Option Sentence) : List Effect :=
  match sentence with
  | some s => [Effect.setAx s]
  | none => []

/-- Embeds `_FeedbackHandler.__call__`: look the sentence up under
`feedback.state_id`, then dispatch on the payload kind in the order of
`_FEEDBACK_HANDLERS` (error message, leveled message, processed, added
axiom); an unrecognized payload returns `False` and does nothing. -/
def feedbackCall (state_id_map : List (Nat × Sentence)) (fb : Feedback) :
    Bool × List Effect :=
  let sentence := dictGet state_id_map fb.state_id
  match fb.content with
  | FeedbackContent.errorMsgFb loc msg => (true, onErrorMsg loc msg sentence)
  | FeedbackContent.messageFb lvl loc msg => (true, onMessage lvl loc msg sentence)
  | FeedbackContent.processedFb => (true, onProcessed sentence)
  | FeedbackContent.addedAxFb => (true, onAddedAx sentence)
  | FeedbackContent.otherFb => (false, [])

/-- The payload kinds recognized by `_FEEDBACK_HANDLERS` (spec section 4.3:
the four listed kinds; everything else is unrecognized). -/
def recognizedFb : FeedbackContent → Bool
  | FeedbackContent.otherFb => false
  | _ => true


/-! ## Dictionary lemmas -/

theorem dictGet_cons (p : Nat × α) (m : List (Nat × α)) (k : Nat) :
    dictGet (p :: m) k = if p.1 = k then some p.2 else dictGet m k := by
  by_cases h : p.1 = k
  · simp [dictGet, List.find?, h]
  · have hb : (p.1 == k) = false := by simpa using h
    simp only [dictGet, List.find?, hb, if_neg h]

theorem dictContains_cons (p : Nat × α) (m : List (Nat × α)) (k : Nat) :
    dictContains (p :: m) k = ((p.1 == k) || dictContains m k) := by
  simp [dictContains]

theorem dictContains_iff_mem_keys (m : List (Nat × α)) (k : Nat) :
    dictContains m k = true ↔ k ∈ m.map Prod.fst := by
  simp only [dictContains, List.any_eq_true, List.mem_map, beq_iff_eq]

theorem dictGet_eq_none_of_not_contains (m : List (Nat × α)) (k : Nat)
    (h : dictContains m k = false) : dictGet m k = none := by
  unfold dictGet
  have hf : m.find? (fun p => p.1 == k) = none := by
    rw [List.find?_eq_none]
    intro p hp
    simp only [dictContains] at h
    have := List.any_eq_false.mp h p hp
    simpa using this
  rw [hf]
  rfl

theorem dictContains_of_dictGet (m : List (Nat × α)) (k : Nat) (v : α)
    (h : dictGet m k = some v) : dictContains m k = true := by
  by_contra hc
  rw [dictGet_eq_none_of_not_contains m k (by simpa using hc)] at h
  exact Option.noConfusion h

theorem dictContains_eq_isSome (m : List (Nat × α)) (k : Nat) :
    dictContains m k = (dictGet m k).isSome := by
  induction m with
  | nil => rfl
  | cons p rest ih =>
    rw [dictGet_cons, dictContains_cons]
    by_cases hp : p.1 = k
    · have hb : (p.1 == k) = true := by simpa using hp
      rw [hb, if_pos hp]
      rfl
    · have hb : (p.1 == k) = false := by simpa using hp
      rw [hb, if_neg hp, Bool.false_or]
      exact ih

theorem mapReplace_get_self (m : List (Nat × α)) (k : Nat) (v : α)
    (hc : dictContains m k = true) :
    dictGet (m.map (fun p => if p.1 == k then (k, v) else p)) k = some v := by
  induction m with
  | nil => simp [dictContains] at hc
  | cons p rest ih =>
    by_cases hp : p.1 = k
    · have hb : (p.1 == k) = true := by simpa using hp
      simp only [List.map_cons, hb, if_pos]
      rw [dictGet_cons, if_pos rfl]
    · have hb : (p.1 == k) = false := by simpa using hp
      simp only [List.map_cons, hb]
      rw [if_neg (by simp), dictGet_cons, if_neg hp]
      rw [dictContains_cons, hb, Bool.false_or] at hc
      exact ih hc

theorem mapReplace_get_ne (m : List (Nat × α)) (k k' : Nat) (v : α)
    (h : k' ≠ k) :
    dictGet (m.map (fun p => if p.1 == k then (k, v) else p)) k'
      = dictGet m k' := by
  induction m with
  | nil => rfl
  | cons p rest ih =>
    by_cases hp : p.1 = k
    · have hb : (p.1 == k) = true := by simpa using hp
      simp only [List.map_cons, hb, if_pos]
      rw [dictGet_cons, dictGet_cons]
      have h1 : ¬ ((k, v).1 = k') := fun hh => h (hh.symm)
      rw [if_neg h1, if_neg (by rw [hp]; exact fun hh => h hh.symm)]
      exact ih
    · have hb : (p.1 == k) = false := by simpa using hp
      simp only [List.map_cons, hb]
      rw [if_neg (by simp), dictGet_cons, dictGet_cons]
      by_cases hpk : p.1 = k'
      · rw [if_pos hpk, if_pos hpk]
      · rw [if_neg hpk, if_neg hpk]
        exact ih

theorem appendOne_get_self (m : List (Nat × α)) (k : Nat) (v : α)
    (hc : dictContains m k = false) :
    dictGet (m ++ [(k, v)]) k = some v := by
  induction m with
  | nil => simp [dictGet, List.find?]
  | cons p rest ih =>
    rw [dictContains_cons, Bool.or_eq_false_iff] at hc
    rw [List.cons_append, dictGet_cons, if_neg (by simpa using hc.1)]
    exact ih hc.2

theorem appendOne_get_ne (m : List (Nat × α)) (k k' : Nat) (v : α)
    (h : k' ≠ k) :
    dictGet (m ++ [(k, v)]) k' = dictGet m k' := by
  induction m with
  | nil =>
    simp only [List.nil_append]
    rw [dictGet_cons, if_neg (fun hh => h hh.symm)]
  | cons p rest ih =>
    rw [List.cons_append, dictGet_cons, dictGet_cons]
    by_cases hpk : p.1 = k'
    · rw [if_pos hpk, if_pos hpk]
    · rw [if_neg hpk, if_neg hpk]
      exact ih

theorem dictGet_dictSet_self (m : List (Nat × α)) (k : Nat) (v : α) :
    dictGet (dictSet m k v) k = some v := by
  unfold dictSet
  by_cases hc : dictContains m k = true
  · rw [if_pos hc]
    exact mapReplace_get_self m k v hc
  · rw [if_neg hc]
    exact appendOne_get_self m k v (by simpa using hc)

theorem dictGet_dictSet_ne (m : List (Nat × α)) (k k' : Nat) (v : α)
    (h : k' ≠ k) : dictGet (dictSet m k v) k' = dictGet m k' := by
  unfold dictSet
  by_cases hc : dictContains m k = true
  · rw [if_pos hc]
    exact mapReplace_get_ne m k k' v h
  · rw [if_neg hc]
    exact appendOne_get_ne m k k' v h

theorem dictContains_dictSet (m : List (Nat × α)) (k k' : Nat) (v : α) :
    dictContains (dictSet m k v) k' = ((k' == k) || dictContains m k') := by
  by_cases h : k' = k
  · subst h
    rw [dictContains_eq_isSome, dictGet_dictSet_self]
    simp
  · rw [dictContains_eq_isSome, dictGet_dictSet_ne m k k' v h,
        ← dictContains_eq_isSome]
    have hb : (k' == k) = false := by simpa using h
    rw [hb, Bool.false_or]

theorem dictGetD_dictSet_self (m : List (Nat × α)) (k : Nat) (v dflt : α) :
    dictGetD (dictSet m k v) k dflt = v := by
  rw [dictGetD, dictGet_dictSet_self]
  rfl

theorem dictGetD_dictSet_ne (m : List (Nat × α)) (k k' : Nat) (v dflt : α)
    (h : k' ≠ k) : dictGetD (dictSet m k v) k' dflt = dictGetD m k' dflt := by
  rw [dictGetD, dictGet_dictSet_ne m k k' v h]
  rfl

theorem keys_dictSet_nodup (m : List (Nat × α)) (k : Nat) (v : α)
    (h : (m.map Prod.fst).Nodup) : ((dictSet m k v).map Prod.fst).Nodup := by
  unfold dictSet
  by_cases hc : dictContains m k = true
  · rw [if_pos hc]
    have heq : (m.map (fun p => if p.1 == k then (k, v) else p)).map Prod.fst
        = m.map Prod.fst := by
      rw [List.map_map]
      apply List.map_congr_left
      intro p _
      by_cases hp : p.1 = k
      · simp [hp]
      · simp [hp]
    rw [heq]
    exact h
  · rw [if_neg hc, List.map_append]
    simp only [List.map_cons, List.map_nil]
    rw [List.nodup_append]
    refine ⟨h, by simp, ?_⟩
    intro x hx hk
    rw [List.mem_singleton] at hk
    subst hk
    exact hc ((dictContains_iff_mem_keys m x).mpr hx)

theorem length_dictSet_of_contains (m : List (Nat × α)) (k : Nat) (v : α)
    (hc : dictContains m k = true) : (dictSet m k v).length = m.length := by
  unfold dictSet
  rw [if_pos hc, List.length_map]

theorem dictGet_filter_ne (m : List (Nat × α)) (k k' : Nat) :
    dictGet (m.filter (fun p => p.1 != k)) k'
      = if k' = k then none else dictGet m k' := by
  by_cases h : k' = k
  · subst h
    rw [if_pos rfl]
    apply dictGet_eq_none_of_not_contains
    simp only [dictContains, List.any_eq_false]
    intro p hp
    rw [List.mem_filter] at hp
    have := hp.2
    simp only [bne_iff_ne, ne_eq, decide_eq_true_eq] at this
    simpa using this
  · rw [if_neg h]
    induction m with
    | nil => rfl
    | cons p rest ih =>
      by_cases hpk : p.1 = k
      · rw [List.filter_cons, if_neg (by simp [hpk]), ih,
            dictGet_cons, if_neg (by rw [hpk]; exact fun hh => h hh.symm)]
      · rw [List.filter_cons, if_pos (by simpa using hpk),
            dictGet_cons, dictGet_cons, ih]

theorem dictContains_filter_ne (m : List (Nat × α)) (k k' : Nat) :
    dictContains (m.filter (fun p => p.1 != k)) k'
      = if k' = k then false else dictContains m k' := by
  by_cases h : k' = k
  · subst h
    rw [if_pos rfl, dictContains_eq_isSome, dictGet_filter_ne, if_pos rfl]
    rfl
  · rw [if_neg h, dictContains_eq_isSome, dictGet_filter_ne, if_neg h,
        ← dictContains_eq_isSome]

theorem keys_filter_nodup (m : List (Nat × α)) (k : Nat)
    (h : (m.map Prod.fst).Nodup) :
    ((m.filter (fun p => p.1 != k)).map Prod.fst).Nodup :=
  List.Nodup.sublist (List.Sublist.map Prod.fst (List.filter_sublist m)) h

theorem length_filter_ne_of_contains (m : List (Nat × α)) (k : Nat)
    (hn : (m.map Prod.fst).Nodup) (hc : dictContains m k = true) :
    (m.filter (fun p => p.1 != k)).length + 1 = m.length := by
  induction m with
  | nil => simp [dictContains] at hc
  | cons p rest ih =>
    rw [List.map_cons, List.nodup_cons] at hn
    by_cases hpk : p.1 = k
    · rw [List.filter_cons, if_neg (by simp [hpk])]
      have hself : rest.filter (fun p => p.1 != k) = rest := by
        apply List.filter_eq_self.mpr
        intro q hq
        simp only [bne_iff_ne, ne_eq, decide_eq_true_eq]
        intro hqk
        exact hn.1 (hpk ▸ hqk ▸ List.mem_map_of_mem Prod.fst hq)
      rw [hself, List.length_cons]
    · rw [List.filter_cons, if_pos (by simpa using hpk),
          List.length_cons, List.length_cons]
      have hcr : dictContains rest k = true := by
        rw [dictContains_cons] at hc
        rcases Bool.or_eq_true_iff.mp hc with h1 | h2
        · exact absurd (by simpa using h1) hpk
        · exact h2
      rw [ih hn.2 hcr]

/-! ## List primitive lemmas -/

theorem listIndex_spec [DecidableEq α] (xs : List α) (a : α) :
    ∀ i, listIndex xs a = some i → i < xs.length ∧ xs.get? i = some a := by
  induction xs with
  | nil => intro i h; exact Option.noConfusion h
  | cons x rest ih =>
    intro i h
    unfold listIndex at h
    by_cases hx : x = a
    · rw [if_pos hx] at h
      cases h
      subst hx
      exact ⟨Nat.succ_pos _, rfl⟩
    · rw [if_neg hx] at h
      cases hr : listIndex rest a with
      | none => rw [hr] at h; exact Option.noConfusion h
      | some j =>
        rw [hr] at h
        cases h
        obtain ⟨h1, h2⟩ := ih j hr
        exact ⟨Nat.succ_lt_succ h1, h2⟩

theorem listIndex_of_mem [DecidableEq α] (xs : List α) (a : α) (h : a ∈ xs) :
    ∃ i, listIndex xs a = some i := by
  induction xs with
  | nil => exact absurd h (List.not_mem_nil a)
  | cons x rest ih =>
    unfold listIndex
    by_cases hx : x = a
    · exact ⟨0, by rw [if_pos hx]⟩
    · have hm : a ∈ rest := by
        rcases List.mem_cons.mp h with h1 | h2
        · exact absurd h1.symm hx
        · exact h2
      obtain ⟨j, hj⟩ := ih hm
      exact ⟨j + 1, by rw [if_neg hx, hj]; rfl⟩

theorem listIndex_of_get [DecidableEq α] (xs : List α) (hn : xs.Nodup) :
    ∀ (i : Nat) (a : α), xs.get? i = some a → listIndex xs a = some i := by
  induction xs with
  | nil => intro i a h; simp at h
  | cons x rest ih =>
    intro i a h
    rw [List.nodup_cons] at hn
    cases i with
    | zero =>
      simp only [List.get?] at h
      cases h
      unfold listIndex
      rw [if_pos rfl]
    | succ j =>
      simp only [List.get?] at h
      have hmem : a ∈ rest := List.get?_mem h
      have hx : ¬ x = a := fun hh => hn.1 (hh ▸ hmem)
      unfold listIndex
      rw [if_neg hx, ih hn.2 j a h]
      rfl

theorem pySlice_decomp (xs : List α) (a : Nat) (b : Option Nat) :
    ∃ post, xs = xs.take a ++ pySlice xs a b ++ post
      ∧ pyDelSlice xs a b = xs.take a ++ post := by
  cases b with
  | none =>
    refine ⟨[], ?_, ?_⟩
    · rw [List.append_nil]
      exact (List.take_append_drop a xs).symm
    · rw [List.append_nil]
      rfl
  | some b =>
    by_cases hab : a ≤ b
    · refine ⟨xs.drop b, ?_, ?_⟩
      · have h1 : xs.take a = (xs.take b).take a := by
          rw [List.take_take, Nat.min_eq_left hab]
        have h2 : xs.take a ++ pySlice xs a (some b) = xs.take b := by
          rw [h1]
          exact List.take_append_drop a (xs.take b)
        rw [List.append_assoc] at *
        rw [← List.append_assoc, h2]
        exact (List.take_append_drop b xs).symm
      · simp only [pyDelSlice]
        rw [Nat.max_eq_right hab]
    · have hba : b ≤ a := Nat.le_of_lt (Nat.lt_of_not_le hab)
      have hnil : pySlice xs a (some b) = [] := by
        simp only [pySlice]
        apply List.drop_eq_nil_of_le
        rw [List.length_take]
        exact le_trans (Nat.min_le_left b xs.length) hba
      refine ⟨xs.drop a, ?_, ?_⟩
      · rw [hnil, List.append_nil]
        exact (List.take_append_drop a xs).symm
      · simp only [pyDelSlice]
        rw [Nat.max_eq_left hba]

theorem decomp_mem_del {xs pre mid post : List α} (hx : xs = pre ++ mid ++ post)
    (hn : xs.Nodup) (x : α) : x ∈ pre ++ post ↔ x ∈ xs ∧ x ∉ mid := by
  subst hx
  rw [List.append_assoc] at hn ⊢
  rw [List.nodup_append] at hn
  obtain ⟨hnpre, hnrest, hdisj⟩ := hn
  rw [List.nodup_append] at hnrest
  obtain ⟨hnmid, hnpost, hdisj2⟩ := hnrest
  constructor
  · intro hmem
    rcases List.mem_append.mp hmem with h1 | h2
    · refine ⟨List.mem_append.mpr (Or.inl h1), ?_⟩
      intro hmid
      exact hdisj h1 (List.mem_append.mpr (Or.inl hmid))
    · refine ⟨List.mem_append.mpr (Or.inr (List.mem_append.mpr (Or.inr h2))), ?_⟩
      intro hmid
      exact hdisj2 hmid h2
  · rintro ⟨hmem, hnot⟩
    rcases List.mem_append.mp hmem with h1 | h2
    · exact List.mem_append.mpr (Or.inl h1)
    · rcases List.mem_append.mp h2 with h3 | h4
      · exact absurd h3 hnot
      · exact List.mem_append.mpr (Or.inr h4)

theorem decomp_del_sublist {xs pre mid post : List α}
    (hx : xs = pre ++ mid ++ post) : (pre ++ post).Sublist xs := by
  subst hx
  rw [List.append_assoc]
  exact List.Sublist.append_left (List.sublist_append_right mid post) pre

theorem decomp_mid_sublist {xs pre mid post : List α}
    (hx : xs = pre ++ mid ++ post) : mid.Sublist xs := by
  subst hx
  rw [List.append_assoc]
  exact List.Sublist.trans (List.sublist_append_left mid post)
    (List.sublist_append_right pre (mid ++ post))

theorem decomp_length {xs pre mid post : List α} (hx : xs = pre ++ mid ++ post) :
    (pre ++ post).length + mid.length = xs.length := by
  subst hx
  simp only [List.length_append]
  omega

/-! ## Line-map fold lemmas for `_Document.add` -/

theorem lineMapAdd_eq (m : List (Nat × List Sentence)) (line : Nat) (s : Sentence) :
    lineMapAdd m line s = dictSet m line (dictGetD m line [] ++ [s]) := by
  unfold lineMapAdd
  by_cases hc : dictContains m line = true
  · rw [if_pos hc]
  · rw [if_neg hc]
    have h0 : dictGetD m line ([] : List Sentence) = [] := by
      rw [dictGetD, dictGet_eq_none_of_not_contains _ _ (by simpa using hc)]
      rfl
    rw [h0, List.nil_append]

theorem foldl_lineMapAdd_getD (s : Sentence) :
    ∀ (lines : List Nat), lines.Nodup →
    ∀ (m : List (Nat × List Sentence)) (l : Nat),
      dictGetD (lines.foldl (fun m line => lineMapAdd m line s) m) l []
        = if l ∈ lines then dictGetD m l [] ++ [s] else dictGetD m l [] := by
  intro lines
  induction lines with
  | nil => intro _ m l; simp
  | cons line rest ih =>
    intro hn m l
    rw [List.nodup_cons] at hn
    rw [List.foldl_cons, ih hn.2]
    by_cases hl : l ∈ rest
    · rw [if_pos hl, if_pos (List.mem_cons_of_mem line hl)]
      have hne : l ≠ line := fun hh => hn.1 (hh ▸ hl)
      rw [lineMapAdd_eq, dictGetD_dictSet_ne _ _ _ _ _ hne]
    · rw [if_neg hl]
      by_cases hll : l = line
      · subst hll
        rw [if_pos (List.mem_cons_self l rest), lineMapAdd_eq,
            dictGetD_dictSet_self]
      · rw [if_neg (by simp [hll, hl]), lineMapAdd_eq,
            dictGetD_dictSet_ne _ _ _ _ _ hll]

theorem coveredLines_nodup (s : Sentence) : (coveredLines s).Nodup := by
  unfold coveredLines pyRange
  exact List.nodup_range' _ _

theorem coversLine_iff (s : Sentence) (l : Nat) :
    coversLine s l = true ↔ l ∈ coveredLines s := by
  simp [coversLine]

/-! ## Removal lemmas for `_Document.remove_by_index` -/

theorem removeLines_ok (s : Sentence) :
    ∀ (lines : List Nat), lines.Nodup →
    ∀ (lm : List (Nat × List Sentence)),
      (∀ l ∈ lines, s ∈ dictGetD lm l []) →
    ∃ lm1, removeLines s lm lines = Except.ok lm1
      ∧ (∀ l, dictGetD lm1 l [] =
          if l ∈ lines then (dictGetD lm l []).erase s else dictGetD lm l [])
      ∧ (∀ l, dictContains lm1 l = dictContains lm l) := by
  intro lines
  induction lines with
  | nil =>
    intro _ lm _
    exact ⟨lm, rfl, fun l => by simp, fun l => rfl⟩
  | cons line rest ih =>
    intro hn lm hmem
    rw [List.nodup_cons] at hn
    have hs : s ∈ dictGetD lm line [] := hmem line (List.mem_cons_self _ _)
    cases hg : dictGet lm line with
    | none =>
      rw [dictGetD, hg] at hs
      exact absurd hs (List.not_mem_nil s)
    | some lst =>
      have hlst : dictGetD lm line [] = lst := by rw [dictGetD, hg]; rfl
      rw [hlst] at hs
      have hrem : listRemove lst s = some (lst.erase s) := by
        rw [listRemove, if_pos hs]
      have hmem2 : ∀ l ∈ rest, s ∈ dictGetD (dictSet lm line (lst.erase s)) l [] := by
        intro l hl
        have hne : l ≠ line := fun hh => hn.1 (hh ▸ hl)
        rw [dictGetD_dictSet_ne _ _ _ _ _ hne]
        exact hmem l (List.mem_cons_of_mem _ hl)
      obtain ⟨lm1, hok, hchar, hcont⟩ := ih hn.2 (dictSet lm line (lst.erase s)) hmem2
      refine ⟨lm1, ?_, ?_, ?_⟩
      · unfold removeLines
        rw [hg]
        dsimp only
        rw [hrem]
        exact hok
      · intro l
        rw [hchar l]
        by_cases hl : l ∈ rest
        · have hne : l ≠ line := fun hh => hn.1 (hh ▸ hl)
          rw [if_pos hl, if_pos (List.mem_cons_of_mem line hl),
              dictGetD_dictSet_ne _ _ _ _ _ hne]
        · rw [if_neg hl]
          by_cases hll : l = line
          · subst hll
            rw [if_pos (List.mem_cons_self l rest), dictGetD_dictSet_self, hlst]
          · rw [if_neg (by simp [hll, hl]), dictGetD_dictSet_ne _ _ _ _ _ hll]
      · intro l
        rw [hcont l]
        by_cases hll : l = line
        · subst hll
          rw [dictContains_dictSet]
          have : dictContains lm l = true :=
            dictContains_of_dictGet lm l lst hg
          rw [this]
          simp
        · rw [dictContains_eq_isSome, dictGet_dictSet_ne _ _ _ _ hll,
              ← dictContains_eq_isSome]

theorem removeOne_ok (m : List (Nat × Sentence)) (lm : List (Nat × List Sentence))
    (s : Sentence) (hk : dictContains m s.state_id = true)
    (hline : ∀ l, coversLine s l = true → s ∈ dictGetD lm l []) :
    ∃ lm1, removeOne m lm s = Except.ok (m.filter (fun p => p.1 != s.state_id), lm1)
      ∧ (∀ l, dictGetD lm1 l [] =
          if coversLine s l then (dictGetD lm l []).erase s else dictGetD lm l [])
      ∧ (∀ l, dictContains lm1 l = dictContains lm l) := by
  have hmem : ∀ l ∈ coveredLines s, s ∈ dictGetD lm l [] := by
    intro l hl
    exact hline l ((coversLine_iff s l).mpr hl)
  obtain ⟨lm1, hok, hchar, hcont⟩ :=
    removeLines_ok s (coveredLines s) (coveredLines_nodup s) lm hmem
  refine ⟨lm1, ?_, ?_, hcont⟩
  · unfold removeOne dictDelete
    rw [if_pos hk, hok]
  · intro l
    rw [hchar l]
    by_cases hc : coversLine s l = true
    · rw [if_pos ((coversLine_iff s l).mp hc), if_pos hc]
    · have : l ∉ coveredLines s := fun hh => hc ((coversLine_iff s l).mpr hh)
      rw [if_neg this, if_neg hc]

theorem removeFold_ok :
    ∀ (victims : List Sentence) (m : List (Nat × Sentence))
      (lm : List (Nat × List Sentence)),
    victims.Nodup →
    (victims.map Sentence.state_id).Nodup →
    (∀ v ∈ victims, dictContains m v.state_id = true) →
    (∀ v ∈ victims, ∀ l, coversLine v l = true → v ∈ dictGetD lm l []) →
    (∀ l, ∀ x ∈ dictGetD lm l [], coversLine x l = true) →
    (∀ l, (dictGetD lm l []).Nodup) →
    (m.map Prod.fst).Nodup →
    ∃ m1 lm1, removeFold m lm victims = Except.ok (m1, lm1)
      ∧ (∀ k, dictGet m1 k =
          if k ∈ victims.map Sentence.state_id then none else dictGet m k)
      ∧ (∀ l, dictGetD lm1 l [] =
          (dictGetD lm l []).filter (fun x => decide (x ∉ victims)))
      ∧ (∀ l, dictContains lm1 l = dictContains lm l)
      ∧ (m1.map Prod.fst).Nodup
      ∧ m1.length + victims.length = m.length := by
  intro victims
  induction victims with
  | nil =>
    intro m lm _ _ _ _ _ _ hmn
    refine ⟨m, lm, rfl, fun k => by simp, fun l => ?_, fun l => rfl, hmn, by simp⟩
    rw [List.filter_eq_self.mpr]
    intro x _
    simp
  | cons v rest ih =>
    intro m lm hnv hns hk hline hsub hlmn hmn
    rw [List.nodup_cons] at hnv
    rw [List.map_cons, List.nodup_cons] at hns
    obtain ⟨lm1, hok1, hchar1, hcont1⟩ :=
      removeOne_ok m lm v (hk v (List.mem_cons_self _ _))
        (hline v (List.mem_cons_self _ _))
    set m1 := m.filter (fun p => p.1 != v.state_id) with hm1
    have hk2 : ∀ w ∈ rest, dictContains m1 w.state_id = true := by
      intro w hw
      rw [hm1, dictContains_filter_ne]
      have hne : w.state_id ≠ v.state_id := by
        intro hh
        exact hns.1 (hh ▸ List.mem_map_of_mem Sentence.state_id hw)
      rw [if_neg hne]
      exact hk w (List.mem_cons_of_mem _ hw)
    have hline2 : ∀ w ∈ rest, ∀ l, coversLine w l = true →
        w ∈ dictGetD lm1 l [] := by
      intro w hw l hcov
      rw [hchar1 l]
      have hwl : w ∈ dictGetD lm l [] :=
        hline w (List.mem_cons_of_mem _ hw) l hcov
      by_cases hc : coversLine v l = true
      · rw [if_pos hc]
        have hne : w ≠ v := fun hh => hnv.1 (hh ▸ hw)
        exact (List.mem_erase_of_ne hne).mpr hwl
      · rw [if_neg hc]
        exact hwl
    have hsub2 : ∀ l, ∀ x ∈ dictGetD lm1 l [], coversLine x l = true := by
      intro l x hx
      rw [hchar1 l] at hx
      by_cases hc : coversLine v l = true
      · rw [if_pos hc] at hx
        exact hsub l x (List.mem_of_mem_erase hx)
      · rw [if_neg hc] at hx
        exact hsub l x hx
    have hlmn2 : ∀ l, (dictGetD lm1 l []).Nodup := by
      intro l
      rw [hchar1 l]
      by_cases hc : coversLine v l = true
      · rw [if_pos hc]
        exact List.Nodup.erase v (hlmn l)
      · rw [if_neg hc]
        exact hlmn l
    have hmn2 : (m1.map Prod.fst).Nodup := keys_filter_nodup m v.state_id hmn
    obtain ⟨m2, lm2, hok2, hgchar, hlchar, hlcont, hmn3, hlen⟩ :=
      ih m1 lm1 hnv.2 hns.2 hk2 hline2 hsub2 hlmn2 hmn2
    refine ⟨m2, lm2, ?_, ?_, ?_, ?_, hmn3, ?_⟩
    · unfold removeFold
      rw [hok1]
      exact hok2
    · intro k
      rw [hgchar k, hm1]
      by_cases h1 : k ∈ rest.map Sentence.state_id
      · rw [if_pos h1, if_pos (by rw [List.map_cons]; exact List.mem_cons_of_mem _ h1)]
      · rw [if_neg h1, dictGet_filter_ne]
        by_cases h2 : k = v.state_id
        · rw [if_pos h2,
              if_pos (by rw [List.map_cons, h2]; exact List.mem_cons_self _ _)]
        · rw [if_neg h2, if_neg (by rw [List.map_cons]; simp [h2, h1])]
    · intro l
      rw [hlchar l, hchar1 l]
      by_cases hc : coversLine v l = true
      · rw [if_pos hc]
        rw [List.Nodup.erase_eq_filter (hlmn l), List.filter_filter]
        apply List.filter_congr
        intro x _
        by_cases hxv : x = v
        · subst hxv
          simp
        · by_cases hxr : x ∈ rest
          · simp [hxv, hxr]
          · simp [hxv, hxr]
      · rw [if_neg hc]
        apply List.filter_congr
        intro x hx
        have hxv : x ≠ v := by
          intro hh
          subst hh
          exact hc (hsub l x hx)
        by_cases hxr : x ∈ rest
        · simp [hxv, hxr]
        · simp [hxv, hxr]
    · intro l
      rw [hlcont l, hcont1 l]
    · have hlf := length_filter_ne_of_contains m v.state_id hmn
        (hk v (List.mem_cons_self _ _))
      rw [← hm1] at hlf
      rw [List.length_cons]
      omega

/-! ## Well-formedness invariant of a document -/

/-- The state ids of the sentences of a document, in document order. -/
def sids (d : Document) : List Nat :=
  d.sentences.map Sentence.state_id

/-- Well-formedness of a document: the state-id map indexes exactly the
sentences of the sequence (same cardinality, retrievability, unique keys),
and the line map lists exactly the sentences covering each line, without
duplicates. -/
structure WF (d : Document) : Prop where
  lookup : ∀ s ∈ d.sentences, dictGet d.state_id_map s.state_id = some s
  keys : ∀ k, dictContains d.state_id_map k = true ↔ k ∈ sids d
  kv : ∀ k v, dictGet d.state_id_map k = some v → v.state_id = k
  len_eq : d.state_id_map.length = d.sentences.length
  sids_nodup : (sids d).Nodup
  map_keys_nodup : (d.state_id_map.map Prod.fst).Nodup
  line_mem : ∀ s ∈ d.sentences, ∀ l, coversLine s l = true →
    s ∈ dictGetD d.line_map l []
  line_sub : ∀ l, ∀ x ∈ dictGetD d.line_map l [],
    x ∈ d.sentences ∧ coversLine x l = true
  line_nodup : ∀ l, (dictGetD d.line_map l []).Nodup

theorem WF.sentences_nodup {d : Document} (h : WF d) : d.sentences.Nodup :=
  List.Nodup.of_map Sentence.state_id h.sids_nodup

theorem WF.sid_inj {d : Document} (h : WF d) {x y : Sentence}
    (hx : x ∈ d.sentences) (hy : y ∈ d.sentences)
    (hs : x.state_id = y.state_id) : x = y :=
  List.inj_on_of_nodup_map h.sids_nodup hx hy hs

theorem wf_empty : WF Document.empty := by
  constructor
  · intro s hs
    exact absurd hs (List.not_mem_nil s)
  · intro k
    simp [Document.empty, dictContains, sids]
  · intro k v h
    simp [Document.empty, dictGet, List.find?] at h
  · rfl
  · simp [sids, Document.empty]
  · simp [Document.empty]
  · intro s hs
    exact absurd hs (List.not_mem_nil s)
  · intro l x hx
    simp [Document.empty, dictGetD, dictGet, List.find?] at hx
  · intro l
    simp [Document.empty, dictGetD, dictGet, List.find?]

theorem wf_clear (d : Document) : WF d.clear := wf_empty

/-! ## Characterization of `_Document.remove_by_index` on well-formed
documents: it always succeeds, and removes exactly the sliced sentences. -/

theorem remove_by_index_ok (d : Document) (hwf : WF d) (a : Nat) (b : Option Nat) :
    ∃ d1, d.remove_by_index a b = Except.ok d1
      ∧ d1.sentences = pyDelSlice d.sentences a b
      ∧ (∀ k, dictGet d1.state_id_map k =
          if k ∈ (pySlice d.sentences a b).map Sentence.state_id then none
          else dictGet d.state_id_map k)
      ∧ (∀ l, dictGetD d1.line_map l [] =
          (dictGetD d.line_map l []).filter
            (fun x => decide (x ∉ pySlice d.sentences a b)))
      ∧ (∀ l, dictContains d1.line_map l = dictContains d.line_map l)
      ∧ WF d1 := by
  obtain ⟨post, hxs, hdel⟩ := pySlice_decomp d.sentences a b
  set victims := pySlice d.sentences a b with hv
  have hvsub : victims.Sublist d.sentences := decomp_mid_sublist hxs
  have hvnodup : victims.Nodup := List.Nodup.sublist hvsub hwf.sentences_nodup
  have hvsids : (victims.map Sentence.state_id).Nodup :=
    List.Nodup.sublist (List.Sublist.map Sentence.state_id hvsub) hwf.sids_nodup
  have hk : ∀ v ∈ victims, dictContains d.state_id_map v.state_id = true := by
    intro v hvm
    exact (hwf.keys v.state_id).mpr
      (List.mem_map_of_mem Sentence.state_id (hvsub.mem hvm))
  have hline : ∀ v ∈ victims, ∀ l, coversLine v l = true →
      v ∈ dictGetD d.line_map l [] := by
    intro v hvm l hcov
    exact hwf.line_mem v (hvsub.mem hvm) l hcov
  have hsub : ∀ l, ∀ x ∈ dictGetD d.line_map l [], coversLine x l = true := by
    intro l x hx
    exact (hwf.line_sub l x hx).2
  obtain ⟨m1, lm1, hok, hgchar, hlchar, hlcont, hmn1, hlen1⟩ :=
    removeFold_ok victims d.state_id_map d.line_map hvnodup hvsids hk hline
      hsub hwf.line_nodup hwf.map_keys_nodup
  have hsid_notin : ∀ s ∈ d.sentences, s ∉ victims →
      s.state_id ∉ victims.map Sentence.state_id := by
    intro s hs hsv hmem
    obtain ⟨v, hvm, hveq⟩ := List.mem_map.mp hmem
    exact hsv (hwf.sid_inj (hvsub.mem hvm) hs hveq ▸ hvm)
  have hmem_del : ∀ x, x ∈ pyDelSlice d.sentences a b ↔
      x ∈ d.sentences ∧ x ∉ victims := by
    intro x
    rw [hdel]
    exact decomp_mem_del hxs hwf.sentences_nodup x
  refine ⟨{ sentences := pyDelSlice d.sentences a b, state_id_map := m1,
            line_map := lm1 }, ?_, rfl, hgchar, hlchar, hlcont, ?_⟩
  · unfold Document.remove_by_index
    rw [← hv, hok]
  · constructor
    · intro s hs
      rw [hmem_del s] at hs
      dsimp only
      rw [hgchar s.state_id, if_neg (hsid_notin s hs.1 hs.2)]
      exact hwf.lookup s hs.1
    · intro k
      dsimp only
      rw [dictContains_eq_isSome, hgchar k]
      constructor
      · intro hh
        by_cases hkv : k ∈ victims.map Sentence.state_id
        · rw [if_pos hkv] at hh
          simp at hh
        · rw [if_neg hkv, ← dictContains_eq_isSome] at hh
          obtain ⟨s, hs, hsk⟩ := List.mem_map.mp ((hwf.keys k).mp hh)
          have hsv : s ∉ victims := fun hc => hkv (hsk ▸
            List.mem_map_of_mem Sentence.state_id hc)
          exact List.mem_map.mpr ⟨s, (hmem_del s).mpr ⟨hs, hsv⟩, hsk⟩
      · intro hh
        obtain ⟨s, hs, hsk⟩ := List.mem_map.mp hh
        rw [hmem_del s] at hs
        rw [if_neg (hsk ▸ hsid_notin s hs.1 hs.2), ← dictContains_eq_isSome]
        exact (hwf.keys k).mpr (List.mem_map.mpr ⟨s, hs.1, hsk⟩)
    · intro k v hkv
      rw [hgchar k] at hkv
      by_cases hmem : k ∈ victims.map Sentence.state_id
      · rw [if_pos hmem] at hkv
        exact Option.noConfusion hkv
      · rw [if_neg hmem] at hkv
        exact hwf.kv k v hkv
    · dsimp only
      have h2 := decomp_length hxs
      rw [← hdel] at h2
      rw [← hwf.len_eq] at h2
      omega
    · have : (pyDelSlice d.sentences a b).Sublist d.sentences := by
        rw [hdel]
        exact decomp_del_sublist hxs
      exact List.Nodup.sublist (List.Sublist.map Sentence.state_id this)
        hwf.sids_nodup
    · exact hmn1
    · intro s hs l hcov
      rw [hmem_del s] at hs
      dsimp only
      rw [hlchar l]
      rw [List.mem_filter]
      exact ⟨hwf.line_mem s hs.1 l hcov, by simpa using hs.2⟩
    · intro l x hx
      dsimp only at hx ⊢
      rw [hlchar l] at hx
      rw [List.mem_filter] at hx
      obtain ⟨hx1, hx2⟩ := hx
      obtain ⟨hxs1, hxcov⟩ := hwf.line_sub l x hx1
      refine ⟨(hmem_del x).mpr ⟨hxs1, by simpa using hx2⟩, hxcov⟩
    · intro l
      dsimp only
      rw [hlchar l]
      exact List.Nodup.filter _ (hwf.line_nodup l)

/-! ## Characterization of `_Document.add` -/

theorem length_dictSet_of_not_contains (m : List (Nat × α)) (k : Nat) (v : α)
    (hc : dictContains m k = false) :
    (dictSet m k v).length = m.length + 1 := by
  unfold dictSet
  rw [if_neg (by simp [hc]), List.length_append]
  rfl

theorem add_insert_eq (d : Document) (s : Sentence) (tip : Option Sentence)
    (d1 : Document) (hok : d.add s tip = Except.ok d1) :
    ∃ idx, idx ≤ d.sentences.length
      ∧ d1.sentences = d.sentences.insertIdx idx s
      ∧ d1.state_id_map = dictSet d.state_id_map s.state_id s
      ∧ d1.line_map = (coveredLines s).foldl
          (fun m line => lineMapAdd m line s) d.line_map
      ∧ (tip = none → idx = d.sentences.length)
      ∧ (∀ t, tip = some t → ∃ i, listIndex d.sentences t = some i
          ∧ idx = i + 1) := by
  cases tip with
  | none =>
    unfold Document.add at hok
    cases hok
    exact ⟨d.sentences.length, le_refl _, rfl, rfl, rfl, fun _ => rfl,
      fun t ht => Option.noConfusion ht⟩
  | some t =>
    unfold Document.add at hok
    dsimp only at hok
    cases hidx : listIndex d.sentences t with
    | none => rw [hidx] at hok; exact Except.noConfusion hok
    | some i =>
      rw [hidx] at hok
      cases hok
      obtain ⟨hlt, _⟩ := listIndex_spec d.sentences t i hidx
      exact ⟨i + 1, hlt, rfl, rfl, rfl,
        fun hh => Option.noConfusion hh,
        fun u hu => by cases hu; exact ⟨i, hidx, rfl⟩⟩

theorem add_wf (d : Document) (hwf : WF d) (s : Sentence) (tip : Option Sentence)
    (hfresh : dictContains d.state_id_map s.state_id = false) (d1 : Document)
    (hok : d.add s tip = Except.ok d1) : WF d1 := by
  obtain ⟨idx, hle, hsen, hmap, hlm, _, _⟩ := add_insert_eq d s tip d1 hok
  have hs_not_mem : s ∉ d.sentences := by
    intro hc
    have : dictContains d.state_id_map s.state_id = true :=
      (hwf.keys s.state_id).mpr (List.mem_map_of_mem Sentence.state_id hc)
    rw [hfresh] at this
    exact Bool.noConfusion this
  have hsid_fresh : s.state_id ∉ sids d := by
    intro hc
    have := (hwf.keys s.state_id).mpr hc
    rw [hfresh] at this
    exact Bool.noConfusion this
  have hmem1 : ∀ x, x ∈ d1.sentences ↔ x = s ∨ x ∈ d.sentences := by
    intro x
    rw [hsen]
    exact List.mem_insertIdx hle
  have hperm : d1.sentences.Perm (s :: d.sentences) := by
    rw [hsen]
    exact List.perm_insertIdx s d.sentences hle
  have hsids1 : (sids d1).Perm (s.state_id :: sids d) :=
    List.Perm.map Sentence.state_id hperm
  have hgd : ∀ l, dictGetD d1.line_map l [] =
      if l ∈ coveredLines s then dictGetD d.line_map l [] ++ [s]
      else dictGetD d.line_map l [] := by
    intro l
    rw [hlm]
    exact foldl_lineMapAdd_getD s (coveredLines s) (coveredLines_nodup s)
      d.line_map l
  constructor
  · intro x hx
    rw [hmem1 x] at hx
    rw [hmap]
    rcases hx with rfl | hx
    · exact dictGet_dictSet_self _ _ _
    · have hne : x.state_id ≠ s.state_id := by
        intro hc
        exact hsid_fresh (hc ▸ List.mem_map_of_mem Sentence.state_id hx)
      rw [dictGet_dictSet_ne _ _ _ _ hne]
      exact hwf.lookup x hx
  · intro k
    rw [hmap, dictContains_dictSet, hsids1.mem_iff, List.mem_cons]
    constructor
    · intro hh
      rcases Bool.or_eq_true_iff.mp hh with h1 | h2
      · exact Or.inl (by simpa using h1)
      · exact Or.inr ((hwf.keys k).mp h2)
    · intro hh
      rcases hh with h1 | h2
      · apply Bool.or_eq_true_iff.mpr
        exact Or.inl (by simpa using h1)
      · exact Bool.or_eq_true_iff.mpr (Or.inr ((hwf.keys k).mpr h2))
  · intro k v hkv
    rw [hmap] at hkv
    by_cases hks : k = s.state_id
    · subst hks
      rw [dictGet_dictSet_self] at hkv
      cases hkv
      rfl
    · rw [dictGet_dictSet_ne _ _ _ _ hks] at hkv
      exact hwf.kv k v hkv
  · rw [hmap, hsen, length_dictSet_of_not_contains _ _ _ hfresh,
        List.length_insertIdx idx d.sentences hle, hwf.len_eq]
  · exact hsids1.symm.nodup
      (List.nodup_cons.mpr ⟨hsid_fresh, hwf.sids_nodup⟩)
  · rw [hmap]
    exact keys_dictSet_nodup _ _ _ hwf.map_keys_nodup
  · intro x hx l hcov
    rw [hmem1 x] at hx
    rw [hgd l]
    rcases hx with rfl | hx
    · rw [if_pos ((coversLine_iff x l).mp hcov)]
      exact List.mem_append.mpr (Or.inr (List.mem_cons_self x []))
    · have hx2 := hwf.line_mem x hx l hcov
      by_cases hc : l ∈ coveredLines s
      · rw [if_pos hc]
        exact List.mem_append.mpr (Or.inl hx2)
      · rw [if_neg hc]
        exact hx2
  · intro l x hx
    rw [hgd l] at hx
    by_cases hc : l ∈ coveredLines s
    · rw [if_pos hc] at hx
      rcases List.mem_append.mp hx with h1 | h2
      · obtain ⟨hm, hcov⟩ := hwf.line_sub l x h1
        exact ⟨(hmem1 x).mpr (Or.inr hm), hcov⟩
      · rw [List.mem_singleton] at h2
        subst h2
        exact ⟨(hmem1 x).mpr (Or.inl rfl), (coversLine_iff x l).mpr hc⟩
    · rw [if_neg hc] at hx
      obtain ⟨hm, hcov⟩ := hwf.line_sub l x hx
      exact ⟨(hmem1 x).mpr (Or.inr hm), hcov⟩
  · intro l
    rw [hgd l]
    by_cases hc : l ∈ coveredLines s
    · rw [if_pos hc]
      rw [List.nodup_append]
      refine ⟨hwf.line_nodup l, by simp, ?_⟩
      intro x hx hmem
      rw [List.mem_singleton] at hmem
      subst hmem
      exact hs_not_mem (hwf.line_sub l x hx).1
    · rw [if_neg hc]
      exact hwf.line_nodup l

/-! ## Reachable documents (claim C1) -/

/-- The states of a `_Document` reachable from the empty document through
`add` (with a fresh state id, as the Coq protocol guarantees),
`remove_by_index`, and `clear`.  A failed `add` (its `list.index` call
raising before any mutation) leaves the document unchanged, so no extra
state arises from it. -/
inductive Reach : Document → Prop
  | empty : Reach Document.empty
  | add {d : Document} {s : Sentence} {tip : Option Sentence} {d1 : Document} :
      Reach d → dictContains d.state_id_map s.state_id = false →
      d.add s tip = Except.ok d1 → Reach d1
  | remove {d : Document} {a : Nat} {b : Option Nat} {d1 : Document} :
      Reach d → d.remove_by_index a b = Except.ok d1 → Reach d1
  | clear {d : Document} : Reach d → Reach d.clear

theorem reach_wf {d : Document} (h : Reach d) : WF d := by
  induction h with
  | empty => exact wf_empty
  | add _ hfresh hok ih => exact add_wf _ ih _ _ hfresh _ hok
  | remove hr hok ih =>
    rename_i d a b d1
    obtain ⟨d2, hok2, _, _, _, _, hwf2⟩ := remove_by_index_ok d ih a b
    rw [hok] at hok2
    cases hok2
    exact hwf2
  | clear _ ih => exact wf_clear _

/-! ## Characterization of `_Document.remove_covering_line` -/

theorem removeCoveringFold_ok :
    ∀ (victims : List Sentence) (m : List (Nat × Sentence)) (ss : List Sentence),
    victims.Nodup →
    (∀ v ∈ victims, v ∈ ss) →
    ss.Nodup →
    (ss.map Sentence.state_id).Nodup →
    (∀ v ∈ ss, dictContains m v.state_id = true) →
    ∃ m1 ss1, removeCoveringFold m ss victims = Except.ok (m1, ss1)
      ∧ (∀ k, dictGet m1 k =
          if k ∈ victims.map Sentence.state_id then none else dictGet m k)
      ∧ ss1 = ss.filter (fun x => decide (x ∉ victims)) := by
  intro victims
  induction victims with
  | nil =>
    intro m ss _ _ _ _ _
    refine ⟨m, ss, rfl, fun k => by simp, ?_⟩
    rw [List.filter_eq_self.mpr]
    intro x _
    simp
  | cons v rest ih =>
    intro m ss hnv hvss hnss hnsid hcont
    rw [List.nodup_cons] at hnv
    have hvs : v ∈ ss := hvss v (List.mem_cons_self _ _)
    have hdel : dictDelete m v.state_id =
        Except.ok (m.filter (fun p => p.1 != v.state_id)) := by
      unfold dictDelete
      rw [if_pos (hcont v hvs)]
    have hrem : listRemove ss v = some (ss.erase v) := by
      rw [listRemove, if_pos hvs]
    have hvnotin : v ∉ ss.erase v := List.Nodup.not_mem_erase hnss
    have hss2 : ∀ w ∈ rest, w ∈ ss.erase v := by
      intro w hw
      have hne : w ≠ v := fun hh => hnv.1 (hh ▸ hw)
      exact (List.mem_erase_of_ne hne).mpr (hvss w (List.mem_cons_of_mem _ hw))
    have hnss2 : (ss.erase v).Nodup := List.Nodup.erase v hnss
    have hnsid2 : ((ss.erase v).map Sentence.state_id).Nodup :=
      List.Nodup.sublist (List.Sublist.map Sentence.state_id
        (List.erase_sublist v ss)) hnsid
    have hcont2 : ∀ w ∈ ss.erase v,
        dictContains (m.filter (fun p => p.1 != v.state_id)) w.state_id = true := by
      intro w hw
      rw [dictContains_filter_ne]
      have hwm : w ∈ ss := List.mem_of_mem_erase hw
      have hwv : w ≠ v := fun hh => hvnotin (hh ▸ hw)
      have hne : w.state_id ≠ v.state_id := fun hh =>
        hwv (List.inj_on_of_nodup_map hnsid hwm hvs hh)
      rw [if_neg hne]
      exact hcont w hwm
    obtain ⟨m1, ss1, hok, hgchar, hschar⟩ :=
      ih (m.filter (fun p => p.1 != v.state_id)) (ss.erase v)
        hnv.2 hss2 hnss2 hnsid2 hcont2
    refine ⟨m1, ss1, ?_, ?_, ?_⟩
    · unfold removeCoveringFold
      rw [hdel]
      dsimp only
      rw [hrem]
      exact hok
    · intro k
      rw [hgchar k]
      by_cases h1 : k ∈ rest.map Sentence.state_id
      · rw [if_pos h1,
            if_pos (by rw [List.map_cons]; exact List.mem_cons_of_mem _ h1)]
      · rw [if_neg h1, dictGet_filter_ne]
        by_cases h2 : k = v.state_id
        · rw [if_pos h2,
              if_pos (by rw [List.map_cons, h2]; exact List.mem_cons_self _ _)]
        · rw [if_neg h2, if_neg (by rw [List.map_cons]; simp [h2, h1])]
    · rw [hschar, List.Nodup.erase_eq_filter hnss, List.filter_filter]
      apply List.filter_congr
      intro x _
      by_cases hxv : x = v
      · subst hxv
        simp
      · by_cases hxr : x ∈ rest
        · simp [hxv, hxr]
        · simp [hxv, hxr]

/-! ## Claim theorems: the Document layer -/

/-- C1: Document/state-id-map coherence.  In every state of the `_Document`
reachable from the empty document via `add` (each added sentence carrying a
state id not already in the map), `remove_by_index`, and `clear`, the
state-id map and the sentence sequence have the same length and every
sentence of the sequence is retrievable from `state_id_map` under its own
state id.  Moreover, from such a state `remove_by_index` succeeds for every
slice, so no operation can fail half-way and leave the map and the sequence
mutated apart (a failed `add` raises in its `list.index` lookup before any
mutation). -/
theorem c1_document_coherence (d : Document) (h : Reach d) :
    d.state_id_map.length = d.sentences.length ∧
    (∀ s ∈ d.sentences, dictGet d.state_id_map s.state_id = some s) ∧
    (∀ a b, ∃ d1, d.remove_by_index a b = Except.ok d1) := by
  have hwf := reach_wf h
  refine ⟨hwf.len_eq, hwf.lookup, ?_⟩
  intro a b
  obtain ⟨d1, hok, _⟩ := remove_by_index_ok d hwf a b
  exact ⟨d1, hok⟩

/-- A concrete one-sentence region used by the witnesses. -/
def sampleRegion : Region :=
  { start := { line := 1, col := 1 }, stop := { line := 2, col := 5 },
    command := "Lemma a : True." }

/-- A concrete sentence with state id 2. -/
def sampleSentence : Sentence :=
  { region := sampleRegion, state_id := 2, status := HlStatus.processing }

/-- The document obtained by adding `sampleSentence` to the empty document. -/
def sampleDoc : Document :=
  { sentences := [sampleSentence]
    state_id_map := [(2, sampleSentence)]
    line_map := [(1, [sampleSentence]), (2, [sampleSentence])] }

theorem sampleDoc_reach : Reach sampleDoc :=
  @Reach.add Document.empty sampleSentence none sampleDoc
    Reach.empty (by decide) (by rfl)

theorem c1_document_coherence_witness :
    sampleDoc.state_id_map.length = sampleDoc.sentences.length ∧
    (∀ s ∈ sampleDoc.sentences,
      dictGet sampleDoc.state_id_map s.state_id = some s) ∧
    (∀ a b, ∃ d1, sampleDoc.remove_by_index a b = Except.ok d1) :=
  c1_document_coherence sampleDoc sampleDoc_reach

/-- C10: `remove_covering_line(line)` on a well-formed document whose line
map has an entry for `line` removes exactly the sentences covering `line`
from the sequence and the state-id map, and empties the line-map entry for
`line` only (every other key keeps its binding unchanged); consequently a
removed sentence whose region also spans another line `l ≠ line` is still
yielded by `iter_covering_line(l)` afterwards. -/
theorem c10_remove_covering_line (d : Document) (hwf : WF d) (line : Nat)
    (hkey : dictContains d.line_map line = true) :
    ∃ d1, d.remove_covering_line line = Except.ok d1
      ∧ d1.sentences = d.sentences.filter (fun s => !coversLine s line)
      ∧ (∀ s ∈ d.sentences, coversLine s line = true →
          dictGet d1.state_id_map s.state_id = none)
      ∧ dictGetD d1.line_map line [] = []
      ∧ (∀ l, l ≠ line → dictGet d1.line_map l = dictGet d.line_map l)
      ∧ (∀ s ∈ d.sentences, coversLine s line = true →
          ∀ l, l ≠ line → coversLine s l = true →
            s ∈ d1.iter_covering_line l) := by
  set victims := dictGetD d.line_map line [] with hv
  have hvss : ∀ v ∈ victims, v ∈ d.sentences := fun v hvm =>
    (hwf.line_sub line v hvm).1
  have hcont : ∀ v ∈ d.sentences, dictContains d.state_id_map v.state_id = true :=
    fun v hvm => (hwf.keys v.state_id).mpr
      (List.mem_map_of_mem Sentence.state_id hvm)
  obtain ⟨m1, ss1, hok, hgchar, hschar⟩ :=
    removeCoveringFold_ok victims d.state_id_map d.sentences
      (hwf.line_nodup line) hvss hwf.sentences_nodup hwf.sids_nodup hcont
  have hcov_mem : ∀ s ∈ d.sentences, (coversLine s line = true ↔ s ∈ victims) := by
    intro s hs
    constructor
    · intro hcov
      exact hwf.line_mem s hs line hcov
    · intro hvm
      exact (hwf.line_sub line s hvm).2
  refine ⟨{ sentences := ss1, state_id_map := m1,
            line_map := dictSet d.line_map line [] }, ?_, ?_, ?_, ?_, ?_, ?_⟩
  · unfold Document.remove_covering_line
    rw [← hv, hok]
    dsimp only
    rw [if_pos hkey]
  · dsimp only
    rw [hschar]
    apply List.filter_congr
    intro x hx
    by_cases hc : coversLine x line = true
    · simp [hc, (hcov_mem x hx).mp hc]
    · have : x ∉ victims := fun hh => hc ((hcov_mem x hx).mpr hh)
      simp only [Bool.not_eq_true] at hc
      simp [hc, this]
  · intro s hs hcov
    dsimp only
    rw [hgchar]
    rw [if_pos (List.mem_map_of_mem Sentence.state_id
      ((hcov_mem s hs).mp hcov))]
  · dsimp only
    rw [dictGetD_dictSet_self]
  · intro l hl
    dsimp only
    exact dictGet_dictSet_ne _ _ _ _ hl
  · intro s hs hcov l hl hcovl
    unfold Document.iter_covering_line
    dsimp only
    rw [dictGetD_dictSet_ne _ _ _ _ _ hl]
    exact hwf.line_mem s hs l hcovl

theorem c10_remove_covering_line_witness :
    ∃ d1, sampleDoc.remove_covering_line 1 = Except.ok d1
      ∧ d1.sentences = sampleDoc.sentences.filter (fun s => !coversLine s 1)
      ∧ (∀ s ∈ sampleDoc.sentences, coversLine s 1 = true →
          dictGet d1.state_id_map s.state_id = none)
      ∧ dictGetD d1.line_map 1 [] = []
      ∧ (∀ l, l ≠ 1 → dictGet d1.line_map l = dictGet sampleDoc.line_map l)
      ∧ (∀ s ∈ sampleDoc.sentences, coversLine s 1 = true →
          ∀ l, l ≠ 1 → coversLine s l = true →
            s ∈ d1.iter_covering_line l) :=
  c10_remove_covering_line sampleDoc (reach_wf sampleDoc_reach) 1 (by decide)

/-! ## Claim theorems: the STM layer -/

/-- C5: Add failure handling.  When the `Add` response carries an error, the
handler discards every queued task, constructs a state-id-0 sentence over the
attempted region, stores it as the (single, replaced) failed-sentence marker,
marks it errored with the reported location and message, and leaves the
document — sequence, state-id map and line map alike — and the tip exactly
as they were. -/
theorem c5_add_failure (st : STMState) (sregion : Region) (res : AddRes)
    (err : AddError) (h : res.error = some err) :
    STM.addOnRes st sregion res = Except.ok
      ({ doc := st.doc
         failed_sentence := some
           { region := sregion, state_id := 0, status := HlStatus.errored }
         init_state_id := st.init_state_id
         tip_sentence := st.tip_sentence
         taskQueue := []
         bufnr := st.bufnr },
       [Effect.setErr
          { region := sregion, state_id := 0, status := HlStatus.errored }
          err.location err.message]) := by
  unfold STM.addOnRes
  rw [h]

/-- A sentence currently highlighted as an error. -/
def erroredSentence : Sentence :=
  { region := sampleRegion, state_id := 4, status := HlStatus.errored }

/-- A document whose last (only) sentence has error status. -/
def erroredDoc : Document :=
  { sentences := [erroredSentence]
    state_id_map := [(4, erroredSentence)]
    line_map := [(1, [erroredSentence]), (2, [erroredSentence])] }

/-- An STM state over `erroredDoc`. -/
def erroredSTM : STMState :=
  { doc := erroredDoc
    failed_sentence := none
    init_state_id := some 1
    tip_sentence := none
    taskQueue := []
    bufnr := 3 }

/-- An STM state over `sampleDoc` with two tasks queued. -/
def sampleSTM : STMState :=
  { doc := sampleDoc
    failed_sentence := none
    init_state_id := some 1
    tip_sentence := none
    taskQueue := ["forward_one", "get_goals"]
    bufnr := 3 }

/-- A failing `Add` response with a located error. -/
def failedAddRes : AddRes :=
  { error := some { location := some { start := 0, stop := 4 },
                    message := "Syntax error" }
    new_state_id := 0
    next_state_id := none
    message := "" }

theorem c5_add_failure_witness :
    STM.addOnRes sampleSTM sampleRegion failedAddRes = Except.ok
      ({ doc := sampleSTM.doc
         failed_sentence := some
           { region := sampleRegion, state_id := 0, status := HlStatus.errored }
         init_state_id := sampleSTM.init_state_id
         tip_sentence := sampleSTM.tip_sentence
         taskQueue := []
         bufnr := sampleSTM.bufnr },
       [Effect.setErr
          { region := sampleRegion, state_id := 0, status := HlStatus.errored }
          (some { start := 0, stop := 4 }) "Syntax error"]) :=
  c5_add_failure sampleSTM sampleRegion failedAddRes
    { location := some { start := 0, stop := 4 }, message := "Syntax error" }
    rfl

/-- C6: Synchronous forward rejection.  When the document is non-empty and
its last sentence has error status, `forward` (and `forward_many`) emits the
user-facing error message and returns with the state — document, tip,
failed-sentence marker and task queue — completely unchanged: no task is
scheduled, so no `Add` or `Goal` request can be issued for the call. -/
theorem c6_forward_rejected (st : STMState) (sregion : Region)
    (sregions : List Region) (h : STM.lastHasError st.doc = true) :
    STM.forward st sregion =
      (st, [Effect.showMessage "Fix the error first" "error"]) ∧
    STM.forward_many st sregions =
      (st, [Effect.showMessage "Fix the error first." "error"]) := by
  constructor
  · unfold STM.forward
    rw [if_pos h]
  · unfold STM.forward_many
    rw [if_pos h]

theorem c6_forward_rejected_witness :
    STM.forward erroredSTM sampleRegion =
      (erroredSTM, [Effect.showMessage "Fix the error first" "error"]) ∧
    STM.forward_many erroredSTM [sampleRegion] =
      (erroredSTM, [Effect.showMessage "Fix the error first." "error"]) :=
  c6_forward_rejected erroredSTM sampleRegion [sampleRegion] (by decide)

/-- C7: Feedback dispatch.  The handler reports a feedback as processed
exactly when its payload is one of the four recognized kinds; an
error-message payload (or a leveled message at level "error") marks the
referenced sentence errored with the payload's location and message when one
is found under `feedback.state_id` and otherwise emits a generic error
notification; a non-error leveled message is forwarded at its level;
processed and added-axiom payloads mark the referenced sentence and do
nothing when none is referenced; any other payload changes nothing and
yields `false`. -/
theorem c7_feedback_dispatch (m : List (Nat × Sentence)) (fb : Feedback) :
    ((feedbackCall m fb).1 = recognizedFb fb.content) ∧
    (∀ loc msg, fb.content = FeedbackContent.errorMsgFb loc msg →
      (feedbackCall m fb).2 = (match dictGet m fb.state_id with
        | some s => [Effect.setErr s loc msg]
        | none => [Effect.showMessage msg "error"])) ∧
    (∀ lvl loc msg, fb.content = FeedbackContent.messageFb lvl loc msg →
      (feedbackCall m fb).2 =
        (if lvl = "error" then
          (match dictGet m fb.state_id with
            | some s => [Effect.setErr s loc msg]
            | none => [Effect.showMessage msg "error"])
         else [Effect.showMessage msg lvl])) ∧
    (fb.content = FeedbackContent.processedFb →
      (feedbackCall m fb).2 = (match dictGet m fb.state_id with
        | some s => [Effect.setProcessed s]
        | none => [])) ∧
    (fb.content = FeedbackContent.addedAxFb →
      (feedbackCall m fb).2 = (match dictGet m fb.state_id with
        | some s => [Effect.setAx s]
        | none => [])) ∧
    (fb.content = FeedbackContent.otherFb →
      feedbackCall m fb = (false, [])) := by
  obtain ⟨sid, content⟩ := fb
  cases content with
  | errorMsgFb loc msg =>
    refine ⟨rfl, ?_, ?_, ?_, ?_, ?_⟩
    · intro loc1 msg1 hh
      cases hh
      unfold feedbackCall onErrorMsg
      cases dictGet m sid <;> rfl
    · intro lvl loc1 msg1 hh
      exact absurd hh (by simp)
    · intro hh
      exact absurd hh (by simp)
    · intro hh
      exact absurd hh (by simp)
    · intro hh
      exact absurd hh (by simp)
  | messageFb lvl loc msg =>
    refine ⟨rfl, ?_, ?_, ?_, ?_, ?_⟩
    · intro loc1 msg1 hh
      exact absurd hh (by simp)
    · intro lvl1 loc1 msg1 hh
      cases hh
      unfold feedbackCall onMessage
      dsimp only
      by_cases he : lvl = "error"
      · rw [if_pos (by simpa using he), if_pos he]
      · rw [if_neg (by simpa using he), if_neg he]
    · intro hh
      exact absurd hh (by simp)
    · intro hh
      exact absurd hh (by simp)
    · intro hh
      exact absurd hh (by simp)
  | processedFb =>
    refine ⟨rfl, ?_, ?_, ?_, ?_, ?_⟩
    · intro loc1 msg1 hh
      exact absurd hh (by simp)
    · intro lvl1 loc1 msg1 hh
      exact absurd hh (by simp)
    · intro _
      unfold feedbackCall onProcessed
      cases dictGet m sid <;> rfl
    · intro hh
      exact absurd hh (by simp)
    · intro hh
      exact absurd hh (by simp)
  | addedAxFb =>
    refine ⟨rfl, ?_, ?_, ?_, ?_, ?_⟩
    · intro loc1 msg1 hh
      exact absurd hh (by simp)
    · intro lvl1 loc1 msg1 hh
      exact absurd hh (by simp)
    · intro hh
      exact absurd hh (by simp)
    · intro _
      unfold feedbackCall onAddedAx
      cases dictGet m sid <;> rfl
    · intro hh
      exact absurd hh (by simp)
  | otherFb =>
    refine ⟨rfl, ?_, ?_, ?_, ?_, ?_⟩
    · intro loc1 msg1 hh
      exact absurd hh (by simp)
    · intro lvl1 loc1 msg1 hh
      exact absurd hh (by simp)
    · intro hh
      exact absurd hh (by simp)
    · intro hh
      exact absurd hh (by simp)
    · intro _
      rfl

theorem c7_feedback_dispatch_witness :
    (feedbackCall [(2, sampleSentence)]
      { state_id := 2, content := FeedbackContent.errorMsgFb none "oops" }).2
      = [Effect.setErr sampleSentence none "oops"] := by
  have h := (c7_feedback_dispatch [(2, sampleSentence)]
    { state_id := 2, content := FeedbackContent.errorMsgFb none "oops" }).2.1
    none "oops" rfl
  rw [h]
  rfl

/-- C8: Connection-loss cleanup.  The callback produced by
`_make_on_lost_cb` unconditionally discards every queued task, un-highlights
every sentence then in the document, clears the document (sequence, state-id
map and line map all become empty), emits exactly one connection-lost
notification keyed by the STM's buffer number, and signals task completion;
nothing in it retries. -/
theorem c8_connection_lost (st : STMState) :
    STM.onLostCb st =
      ({ st with taskQueue := [], doc := st.doc.clear },
       st.doc.sentences.map Effect.unhighlight ++ [Effect.connLost st.bufnr],
       true) ∧
    (STM.onLostCb st).1.doc = Document.empty ∧
    (STM.onLostCb st).1.taskQueue = [] ∧
    (STM.onLostCb st).2.1.count (Effect.connLost st.bufnr) = 1 ∧
    (∀ s ∈ st.doc.sentences,
      Effect.unhighlight s ∈ (STM.onLostCb st).2.1) ∧
    (STM.onLostCb st).2.2 = true := by
  refine ⟨rfl, rfl, rfl, ?_, ?_, rfl⟩
  · show ((st.doc.sentences.map Effect.unhighlight)
      ++ [Effect.connLost st.bufnr]).count (Effect.connLost st.bufnr) = 1
    rw [List.count_append]
    have h0 : (st.doc.sentences.map Effect.unhighlight).count
        (Effect.connLost st.bufnr) = 0 := by
      rw [List.count_eq_zero]
      intro hmem
      obtain ⟨s, _, hs⟩ := List.mem_map.mp hmem
      exact Effect.noConfusion hs
    rw [h0]
    simp
  · intro s hs
    show Effect.unhighlight s ∈
      (st.doc.sentences.map Effect.unhighlight) ++ [Effect.connLost st.bufnr]
    exact List.mem_append.mpr (Or.inl (List.mem_map_of_mem Effect.unhighlight hs))

/-! ## Concrete two-sentence document used by witnesses and counterexamples -/

/-- A region on line 1. -/
def r1 : Region :=
  { start := { line := 1, col := 1 }, stop := { line := 1, col := 9 },
    command := "Lemma b : True." }

/-- A region on line 2. -/
def r2 : Region :=
  { start := { line := 2, col := 1 }, stop := { line := 2, col := 9 },
    command := "Proof." }

/-- A region on line 3. -/
def r3 : Region :=
  { start := { line := 3, col := 1 }, stop := { line := 3, col := 9 },
    command := "exact I." }

/-- First concrete sentence, state id 1. -/
def cs1 : Sentence := { region := r1, state_id := 1, status := HlStatus.processed }

/-- Second concrete sentence, state id 3. -/
def cs2 : Sentence := { region := r2, state_id := 3, status := HlStatus.processed }

/-- A two-sentence document. -/
def cdoc : Document :=
  { sentences := [cs1, cs2]
    state_id_map := [(1, cs1), (3, cs2)]
    line_map := [(1, [cs1]), (2, [cs2])] }

theorem cdoc_reach : Reach cdoc :=
  @Reach.add
    { sentences := [cs1], state_id_map := [(1, cs1)], line_map := [(1, [cs1])] }
    cs2 none cdoc
    (@Reach.add Document.empty cs1 none
      { sentences := [cs1], state_id_map := [(1, cs1)], line_map := [(1, [cs1])] }
      Reach.empty (by decide) (by rfl))
    (by decide) (by rfl)

/-- An STM state over `cdoc` with no tip. -/
def cstate : STMState :=
  { doc := cdoc
    failed_sentence := none
    init_state_id := some 1
    tip_sentence := none
    taskQueue := []
    bufnr := 1 }

/-! ## Claim C2: rollback retry convergence -/

/-- The precondition of the C2 retry chain: each response in the chain is an
`EditAt` error whose reported state id is held by a sentence of the document
at a position strictly earlier than the predecessor of the index the chain
is currently at. -/
def ValidErrChain (st : STMState) : Nat → List EditAtRes → Prop
  | _, [] => True
  | i, r :: rs => ∃ err s p, r.error = some err
      ∧ dictGet st.doc.state_id_map err.state_id = some s
      ∧ listIndex st.doc.sentences s = some p
      ∧ p + 1 < i
      ∧ ValidErrChain st (p + 1) rs

/-- The successive indices with which `_backward_before_index` is re-invoked
along a chain of `EditAt` error responses, each driving the retry branch of
`editAtOnRes` (`none` when some response fails to drive it). -/
def chainIndices (st : STMState) : Nat → List EditAtRes → Option (List Nat)
  | _, [] => some []
  | i, r :: rs =>
    match STM.editAtOnRes st i r with
    | Except.ok (STM.EditAtOutcome.retry _ _ j) =>
      (chainIndices st j rs).map (fun js => j :: js)
    | _ => none

theorem validErrChain_length (st : STMState) :
    ∀ (rs : List EditAtRes) (i : Nat), ValidErrChain st i rs →
      rs.length ≤ i - 1 := by
  intro rs
  induction rs with
  | nil =>
    intro i _
    simp
  | cons r rest ih =>
    intro i h
    obtain ⟨err, s, p, _, _, _, hlt, hrest⟩ := h
    have := ih (p + 1) hrest
    simp only [List.length_cons]
    omega

/-- C2: rollback retry convergence.  Along any chain of `EditAt` error
responses satisfying the stated precondition, starting from an index within
the document, the retry chain is fully driven (every response reaches the
retry branch), performs at most `len(sentences)` retries, produces strictly
decreasing indices — so `_backward_before_index` is never invoked twice with
the same index — and each retried index is exactly one past the position of
the sentence holding the reported state id. -/
theorem c2_rollback_convergence (st : STMState) (i : Nat) (rs : List EditAtRes)
    (hvalid : ValidErrChain st i rs) (hle : i ≤ st.doc.sentences.length) :
    ∃ js, chainIndices st i rs = some js
      ∧ rs.length ≤ st.doc.sentences.length
      ∧ List.Chain' (· > ·) (i :: js)
      ∧ (i :: js).Nodup
      ∧ List.Forall₂ (fun (r : EditAtRes) (j : Nat) => ∃ err s p,
          r.error = some err
          ∧ dictGet st.doc.state_id_map err.state_id = some s
          ∧ listIndex st.doc.sentences s = some p ∧ j = p + 1) rs js := by
  induction rs generalizing i with
  | nil =>
    refine ⟨[], rfl, ?_, List.chain'_singleton i, by simp, List.Forall₂.nil⟩
    simp
  | cons r rest ih =>
    obtain ⟨err, s, p, herr, hdict, hindex, hlt, hrest⟩ := hvalid
    have hstep : STM.editAtOnRes st i r = Except.ok
        (STM.EditAtOutcome.retry st
          [Effect.showMessage err.message "error"] (p + 1)) := by
      unfold STM.editAtOnRes
      rw [herr]
      dsimp only
      rw [hdict]
      dsimp only
      rw [hindex]
    obtain ⟨js, hjs, _, hchain, _, hfa⟩ := ih (p + 1) hrest (by omega)
    have hchain2 : List.Chain' (· > ·) (i :: (p + 1) :: js) :=
      List.Chain'.cons hlt hchain
    refine ⟨(p + 1) :: js, ?_, ?_, hchain2, ?_, ?_⟩
    · unfold chainIndices
      rw [hstep]
      dsimp only
      rw [hjs]
      rfl
    · have := validErrChain_length st (r :: rest) i
        ⟨err, s, p, herr, hdict, hindex, hlt, hrest⟩
      omega
    · have hpw : List.Pairwise (· > ·) (i :: (p + 1) :: js) :=
        List.chain'_iff_pairwise.mp hchain2
      exact List.Pairwise.imp (fun h => Nat.ne_of_gt h) hpw
    · exact List.Forall₂.cons ⟨err, s, p, herr, hdict, hindex, rfl⟩ hfa

/-- A concrete failing `EditAt` response naming state id 1. -/
def c2errRes : EditAtRes :=
  { error := some { state_id := 1, message := "not editable" }
    focused := false
    qed := 0 }

theorem c2_rollback_convergence_witness :
    ∃ js, chainIndices cstate 2 [c2errRes] = some js
      ∧ [c2errRes].length ≤ cstate.doc.sentences.length
      ∧ List.Chain' (· > ·) (2 :: js)
      ∧ (2 :: js).Nodup
      ∧ List.Forall₂ (fun (r : EditAtRes) (j : Nat) => ∃ err s p,
          r.error = some err
          ∧ dictGet cstate.doc.state_id_map err.state_id = some s
          ∧ listIndex cstate.doc.sentences s = some p ∧ j = p + 1)
        [c2errRes] js :=
  c2_rollback_convergence cstate 2 [c2errRes]
    ⟨{ state_id := 1, message := "not editable" }, cs1, 0,
      rfl, by decide, by decide, by decide, trivial⟩
    (by decide)

/-! ## Claim C4: tip consistency -/

/-- An STM state over `cdoc` whose tip is the first of the two sentences. -/
def c4state : STMState :=
  { doc := cdoc
    failed_sentence := none
    init_state_id := some 1
    tip_sentence := some cs1
    taskQueue := []
    bufnr := 1 }

/-- A successful `Add` response with no `next_state_id`. -/
def c4res : AddRes :=
  { error := none
    new_state_id := 5
    next_state_id := none
    message := "" }

/-- C4 counterexample: after a successful `Add` with `next_state_id` absent
issued while the tip is a mid-document sentence, the newly added sentence is
inserted after the tip and does not sit last, so the predecessor computed by
`_tip_state_id` for the next forward is the last (old trailing) sentence's
state id (3), not the response's `new_state_id` (5). -/
theorem c4_tip_consistency_counterexample :
    ∃ st1 effs, STM.addOnRes c4state r3 c4res = Except.ok (st1, effs)
      ∧ STM.tip_state_id st1 = some 3
      ∧ STM.tip_state_id st1 ≠ some c4res.new_state_id := by
  refine ⟨_, _, rfl, ?_, ?_⟩ <;> decide

/-- C4 (amended): after a successful `Add` exchange, when the response
carries `next_state_id = k` the predecessor computed by `_tip_state_id`
equals `k` (given that the state-id map binds every key to a sentence
bearing it); when `next_state_id` is absent AND the tip before the exchange
was absent — so that the new sentence is appended at the very end — the
predecessor equals `new_state_id`.  In general the predecessor is, in
priority order, the tip's state id if a tip is set, else the last sentence's
state id if the document is non-empty, else the initial state id. -/
theorem c4_tip_consistency (st : STMState) (sregion : Region) (res : AddRes)
    (st1 : STMState) (effs : List Effect)
    (hkv : ∀ k v, dictGet st.doc.state_id_map k = some v → v.state_id = k)
    (herr : res.error = none)
    (hok : STM.addOnRes st sregion res = Except.ok (st1, effs)) :
    (∀ k, res.next_state_id = some k → STM.tip_state_id st1 = some k) ∧
    ((res.next_state_id = none ∧ st.tip_sentence = none) →
      STM.tip_state_id st1 = some res.new_state_id) ∧
    (∀ st2 : STMState, STM.tip_state_id st2 =
      (match st2.tip_sentence with
       | some t => some t.state_id
       | none =>
         match st2.doc.sentences.getLast? with
         | some s => some s.state_id
         | none => st2.init_state_id)) := by
  unfold STM.addOnRes at hok
  rw [herr] at hok
  dsimp only at hok
  cases hadd : st.doc.add
      { region := sregion, state_id := res.new_state_id,
        status := HlStatus.processing } st.tip_sentence with
  | error e =>
    rw [hadd] at hok
    exact Except.noConfusion hok
  | ok doc1 =>
    rw [hadd] at hok
    cases hnext : res.next_state_id with
    | none =>
      rw [hnext] at hok
      dsimp only at hok
      rw [Except.ok.injEq, Prod.mk.injEq] at hok
      obtain ⟨hst, _⟩ := hok
      subst hst
      refine ⟨?_, ?_, fun st2 => rfl⟩
      · intro k hk
        exact Option.noConfusion hk
      · rintro ⟨_, htip⟩
        obtain ⟨idx, hle, hsen, _, _, hnone, _⟩ := add_insert_eq _ _ _ _ hadd
        unfold STM.tip_state_id
        dsimp only
        rw [hsen, hnone htip, List.insertIdx_length_self, List.getLast?_concat]
    | some k =>
      rw [hnext] at hok
      dsimp only at hok
      cases hget : dictGet doc1.state_id_map k with
      | none =>
        rw [hget] at hok
        exact Except.noConfusion hok
      | some t =>
        rw [hget] at hok
        dsimp only at hok
        rw [Except.ok.injEq, Prod.mk.injEq] at hok
        obtain ⟨hst, _⟩ := hok
        subst hst
        refine ⟨?_, ?_, fun st2 => rfl⟩
        · intro k1 hk1
          cases hk1
          obtain ⟨idx, hle, hsen, hmap, _, _, _⟩ := add_insert_eq _ _ _ _ hadd
          unfold STM.tip_state_id
          dsimp only
          rw [hmap] at hget
          by_cases hks : k = res.new_state_id
          · subst hks
            rw [dictGet_dictSet_self] at hget
            cases hget
            rfl
          · rw [dictGet_dictSet_ne _ _ _ _ hks] at hget
            rw [hkv k t hget]
        · rintro ⟨hn, _⟩
          exact Option.noConfusion hn

theorem c4_tip_consistency_witness :
    ∃ st1 effs, STM.addOnRes cstate r3 c4res = Except.ok (st1, effs)
      ∧ STM.tip_state_id st1 = some c4res.new_state_id := by
  refine ⟨_, _, rfl, ?_⟩
  exact (c4_tip_consistency cstate r3 c4res _ _
    (reach_wf cdoc_reach).kv rfl rfl).2.1 ⟨rfl, rfl⟩

/-! ## Claim C3: focused rollback postcondition -/

theorem pyGet_natCast (xs : List α) (n : Nat) : pyGet xs (n : Int) = xs.get? n := by
  have h1 : ¬ ((n : Int) < 0) := by omega
  have h2 : (0 : Int) ≤ (n : Int) := by omega
  simp only [pyGet, if_neg h1, if_pos h2, Int.toNat_natCast]

/-- A focused successful `EditAt` response whose qed state id is held by the
first sentence of `cdoc`. -/
def c3res0 : EditAtRes :=
  { error := none, focused := true, qed := 1 }

/-- C3 counterexample: at `index = 0` the focused branch succeeds (here on a
two-sentence document whose qed sentence is the first), but the tip it
installs is `sentences[-1]` after the removal — the trailing sentence `cs2`,
which sat at position 1, after `index` — and no sentence \"immediately
preceding position 0\" exists at all, so the claimed postcondition is false
for `index = 0`. -/
theorem c3_focused_rollback_counterexample :
    ∃ st1 effs, STM.editAtOnRes cstate 0 c3res0
        = Except.ok (STM.EditAtOutcome.done st1 effs)
      ∧ st1.tip_sentence = some cs2
      ∧ listIndex cstate.doc.sentences cs2 = some 1
      ∧ ¬ ∃ s p, st1.tip_sentence = some s
          ∧ listIndex cstate.doc.sentences s = some p ∧ p + 1 = 0 := by
  refine ⟨_, _, rfl, by decide, by decide, ?_⟩
  rintro ⟨s, p, _, _, hp⟩
  omega

/-- C3 (amended): for `index ≥ 1`, when the `EditAt` response to
`_backward_before_index(index)` succeeds with `focused = true` and a qed
state id held by the sentence at position `qed_index ≥ index` of a
well-formed document, the handler succeeds, un-highlights exactly the
sentences at positions `index` through `qed_index` inclusive, removes
exactly those sentences from the sequence and the state-id map, and sets the
tip to the sentence at position `index - 1` (the one immediately preceding
position `index`).  For `index = 0` the code instead installs
`sentences[-1]` (see the counterexample). -/
theorem c3_focused_rollback (st : STMState) (index : Nat) (res : EditAtRes)
    (qs : Sentence) (qi : Nat) (hwf : WF st.doc)
    (herr : res.error = none) (hfoc : res.focused = true)
    (hq : dictGet st.doc.state_id_map res.qed = some qs)
    (hqi : listIndex st.doc.sentences qs = some qi)
    (hge : index ≤ qi) (hpos : 1 ≤ index) :
    ∃ st1, STM.editAtOnRes st index res
        = Except.ok (STM.EditAtOutcome.done st1
          ((pySlice st.doc.sentences index (some (qi + 1))).map
            Effect.unhighlight))
      ∧ st1.doc.sentences = st.doc.sentences.take index
          ++ st.doc.sentences.drop (qi + 1)
      ∧ (∀ v ∈ pySlice st.doc.sentences index (some (qi + 1)),
          dictGet st1.doc.state_id_map v.state_id = none)
      ∧ st1.tip_sentence = st.doc.sentences.get? (index - 1) := by
  obtain ⟨hqlt, _⟩ := listIndex_spec st.doc.sentences qs qi hqi
  obtain ⟨d1, hrem, hsen, hmget, _, _, _⟩ :=
    remove_by_index_ok st.doc hwf index (some (qi + 1))
  have hsen1 : d1.sentences = st.doc.sentences.take index
      ++ st.doc.sentences.drop (qi + 1) := by
    rw [hsen]
    unfold pyDelSlice
    dsimp only
    rw [max_eq_right (by omega : index ≤ qi + 1)]
  have hlen_take : (st.doc.sentences.take index).length = index := by
    rw [List.length_take]
    omega
  have hval : ∃ t, st.doc.sentences.get? (index - 1) = some t := by
    cases hg : st.doc.sentences.get? (index - 1) with
    | none =>
      rw [List.get?_eq_none] at hg
      omega
    | some t => exact ⟨t, rfl⟩
  obtain ⟨t, ht⟩ := hval
  have hpg : pyGet d1.sentences ((index : Int) - 1) = some t := by
    have hcast : ((index : Int) - 1) = (((index - 1 : Nat) : Nat) : Int) := by
      omega
    rw [hcast, pyGet_natCast, hsen1,
        List.get?_append (by rw [hlen_take]; omega),
        List.get?_take (by omega)]
    exact ht
  refine ⟨{ st with doc := d1, tip_sentence := some t }, ?_, hsen1, ?_, ?_⟩
  · unfold STM.editAtOnRes
    rw [herr]
    dsimp only
    rw [hfoc]
    simp only [Bool.not_true]
    rw [if_neg (by simp)]
    rw [hq]
    dsimp only
    rw [hqi]
    dsimp only
    rw [hrem]
    dsimp only
    rw [hpg]
  · intro v hv
    dsimp only
    rw [hmget, if_pos (List.mem_map_of_mem Sentence.state_id hv)]
  · dsimp only
    rw [ht]

/-- A focused successful `EditAt` response whose qed state id is held by the
second sentence of `cdoc`. -/
def c3res1 : EditAtRes :=
  { error := none, focused := true, qed := 3 }

theorem c3_focused_rollback_witness :
    ∃ st1, STM.editAtOnRes cstate 1 c3res1
        = Except.ok (STM.EditAtOutcome.done st1
          ((pySlice cstate.doc.sentences 1 (some (1 + 1))).map
            Effect.unhighlight))
      ∧ st1.doc.sentences = cstate.doc.sentences.take 1
          ++ cstate.doc.sentences.drop (1 + 1)
      ∧ (∀ v ∈ pySlice cstate.doc.sentences 1 (some (1 + 1)),
          dictGet st1.doc.state_id_map v.state_id = none)
      ∧ st1.tip_sentence = cstate.doc.sentences.get? (1 - 1) :=
  c3_focused_rollback cstate 1 c3res1 cs2 1 (reach_wf cdoc_reach)
    rfl rfl (by decide) (by decide) (by decide) (by decide)

/-! ## Claim C9: the unguarded state-id-map lookups -/

theorem WF.get_mem {d : Document} (h : WF d) {k : Nat} {v : Sentence}
    (hg : dictGet d.state_id_map k = some v) : v ∈ d.sentences := by
  have hc := dictContains_of_dictGet _ _ _ hg
  obtain ⟨s, hs, hsk⟩ := List.mem_map.mp ((h.keys k).mp hc)
  have hl := h.lookup s hs
  rw [hsk] at hl
  rw [hg] at hl
  cases hl
  exact hs

/-- C9: the three unguarded `state_id_map` lookups in the STM response
handlers.  (1) After a successful `Add` whose document insertion succeeded,
the handler completes normally iff `next_state_id` (when present) is a key
of the map after the insertion — i.e. belongs to a live sentence.  (2) In
the focused `EditAt` branch on a well-formed document, the handler raises
`KeyError` iff the reported qed state id is not a key of the map.  (3) In
the `EditAt` error branch on a well-formed document, the handler completes
normally (reaching the retry) iff the error's reported state id is a key of
the map.  Under the precondition that the external process only reports live
ids, the exceptional branch is therefore unreachable in all three places. -/
theorem c9_unguarded_lookups (st : STMState) (index : Nat) :
    (∀ (sregion : Region) (res : AddRes) (k : Nat) (d1 : Document),
      res.error = none → res.next_state_id = some k →
      st.doc.add { region := sregion, state_id := res.new_state_id,
                   status := HlStatus.processing } st.tip_sentence
        = Except.ok d1 →
      ((∃ out, STM.addOnRes st sregion res = Except.ok out) ↔
        dictContains d1.state_id_map k = true)) ∧
    (∀ res : EditAtRes, WF st.doc → res.error = none → res.focused = true →
      (STM.editAtOnRes st index res = Except.error Exc.keyError ↔
        dictContains st.doc.state_id_map res.qed = false)) ∧
    (∀ (res : EditAtRes) (err : EditAtError), WF st.doc →
      res.error = some err →
      ((∃ out, STM.editAtOnRes st index res = Except.ok out) ↔
        dictContains st.doc.state_id_map err.state_id = true)) := by
  refine ⟨?_, ?_, ?_⟩
  · intro sregion res k d1 herr hnext hadd
    unfold STM.addOnRes
    rw [herr]
    dsimp only
    rw [hadd]
    dsimp only
    rw [hnext]
    dsimp only
    rw [dictContains_eq_isSome]
    cases hget : dictGet d1.state_id_map k with
    | none =>
      dsimp only
      constructor
      · rintro ⟨out, hout⟩
        exact Except.noConfusion hout
      · intro hh
        exact Bool.noConfusion hh
    | some t =>
      dsimp only
      exact ⟨fun _ => rfl, fun _ => ⟨_, rfl⟩⟩
  · intro res hwf herr hfoc
    unfold STM.editAtOnRes
    rw [herr]
    dsimp only
    rw [hfoc]
    simp only [Bool.not_true]
    rw [if_neg (by simp)]
    rw [dictContains_eq_isSome]
    cases hget : dictGet st.doc.state_id_map res.qed with
    | none =>
      dsimp only
      exact ⟨fun _ => rfl, fun _ => rfl⟩
    | some qs =>
      dsimp only
      obtain ⟨qi, hqi⟩ := listIndex_of_mem st.doc.sentences qs (hwf.get_mem hget)
      rw [hqi]
      dsimp only
      obtain ⟨d1, hrem, _⟩ := remove_by_index_ok st.doc hwf index (some (qi + 1))
      rw [hrem]
      dsimp only
      constructor
      · intro hh
        cases hpg : pyGet d1.sentences ((index : Int) - 1) with
        | none =>
          rw [hpg] at hh
          cases hh
        | some t =>
          rw [hpg] at hh
          exact Except.noConfusion hh
      · intro hh
        exact Bool.noConfusion hh
  · intro res err hwf herr
    unfold STM.editAtOnRes
    rw [herr]
    dsimp only
    rw [dictContains_eq_isSome]
    cases hget : dictGet st.doc.state_id_map err.state_id with
    | none =>
      dsimp only
      constructor
      · rintro ⟨out, hout⟩
        exact Except.noConfusion hout
      · intro hh
        exact Bool.noConfusion hh
    | some s =>
      dsimp only
      obtain ⟨si, hsi⟩ := listIndex_of_mem st.doc.sentences s (hwf.get_mem hget)
      rw [hsi]
      dsimp only
      exact ⟨fun _ => rfl, fun _ => ⟨_, rfl⟩⟩

/-- A successful `Add` response whose `next_state_id` names the already-live
sentence `cs1`. -/
def c9addRes : AddRes :=
  { error := none
    new_state_id := 5
    next_state_id := some 1
    message := "" }

/-- A focused `EditAt` response naming a dead qed state id. -/
def c9deadRes : EditAtRes :=
  { error := none, focused := true, qed := 99 }

theorem c9_unguarded_lookups_witness :
    (∃ out, STM.addOnRes cstate r3 c9addRes = Except.ok out) ∧
    STM.editAtOnRes cstate 1 c9deadRes = Except.error Exc.keyError := by
  constructor
  · exact ((c9_unguarded_lookups cstate 1).1 r3 c9addRes 1 _
      rfl rfl rfl).mpr (by decide)
  · exact ((c9_unguarded_lookups cstate 1).2.1 c9deadRes
      (reach_wf cdoc_reach) rfl rfl).mpr (by decide)

end Coqide
